import Mathlib

/-!
Verification of the GladiusSlicer core against its specification.

The definitions below are shallow embeddings of the Rust sources:
  * `src/src/types.rs` / `src/src/optimizer.rs` - the command stream and the
    command optimizer (machine floats are modelled as exact rationals);
  * `src/gladius_shared/src/settings.rs` - settings validation and the
    per-layer settings overlay;
  * `src/gladius_core/src/pipeline.rs` - the pipeline orchestration skeleton;
  * `src/gladius_core/src/slicing.rs` - the slice sort;
  * `src/src/tower.rs` - tower ring fragments, fragment joining and the
    tower iterator.
-/

/-! ## Command stream data model (src/src/types.rs, as consumed by src/src/optimizer.rs)

Machine `f64` values are modelled as exact rationals `ℚ`; all arithmetic
appearing in the optimizer (subtraction, multiplication, absolute value,
comparison against the literal tolerance) is exact in this range.
-/

/-- A 2D coordinate, the payload of motion commands (`geo::Coordinate<f64>`). -/
structure Coordinate where
  x : ℚ
  y : ℚ
deriving DecidableEq, Repr

/-- `StateChange` from `src/src/types.rs`: each field is an optional scalar;
an absent field inherits the current machine state. -/
structure StateChange where
  extruder_temp : Option ℚ
  bed_temp : Option ℚ
  movement_speed : Option ℚ
  retract : Option Bool
deriving DecidableEq, Repr

/-- `StateChange::default()`: every field `None`. -/
def StateChange.default : StateChange :=
  { extruder_temp := none, bed_temp := none, movement_speed := none, retract := none }

/-- One field of `StateChange::state_diff`: the returned diff value.
If the running value equals the incoming value the diff is `None`,
otherwise it is the incoming value. -/
def diffField {α : Type} [DecidableEq α] (cur other : Option α) : Option α :=
  if cur = other then none else other

/-- One field of `StateChange::state_diff`: the updated running value
(`self.field = other.field.or(self.field)` when the values differ). -/
def updField {α : Type} [DecidableEq α] (cur other : Option α) : Option α :=
  if cur = other then cur else other.or cur

/-- `StateChange::state_diff` from `src/src/types.rs`. The Rust method mutates
`self` (the running state) and returns the diff; the model returns the pair
(diff, updated running state). -/
def StateChange.state_diff (self other : StateChange) : StateChange × StateChange :=
  (⟨diffField self.extruder_temp other.extruder_temp,
    diffField self.bed_temp other.bed_temp,
    diffField self.movement_speed other.movement_speed,
    diffField self.retract other.retract⟩,
   ⟨updField self.extruder_temp other.extruder_temp,
    updField self.bed_temp other.bed_temp,
    updField self.movement_speed other.movement_speed,
    updField self.retract other.retract⟩)

/-- `StateChange::combine` from `src/src/types.rs`: the second state overrides
on fields it sets, the first is kept elsewhere. -/
def StateChange.combine (self other : StateChange) : StateChange :=
  { extruder_temp := other.extruder_temp.or self.extruder_temp,
    bed_temp := other.bed_temp.or self.bed_temp,
    movement_speed := other.movement_speed.or self.movement_speed,
    retract := other.retract.or self.retract }

/-- `Command` from `src/src/types.rs`, restricted to the variants and fields
the command optimizer `src/src/optimizer.rs` pattern-matches (its match arms
are exhaustive over exactly these six variants and bind exactly these
fields). -/
inductive Command where
  | MoveTo (endp : Coordinate)
  | MoveAndExtrude (start endp : Coordinate)
  | LayerChange (z : ℚ)
  | SetState (new_state : StateChange)
  | Delay (msec : ℕ)
  | Arc (start endp center : Coordinate) (clockwise : Bool)
deriving DecidableEq, Repr

/-! ## The command optimizer (src/src/optimizer.rs) -/

/-- The retention predicate of `unary_optimizer`'s `retain` closure.
The source tests `ExtruderTemp` twice and covers all four `StateChange`
fields; the duplicate test is kept verbatim. -/
def keepCommand : Command → Bool
  | .MoveTo _ => true
  | .MoveAndExtrude start endp => start ≠ endp
  | .LayerChange _ => true
  | .SetState new_state =>
      !(new_state.extruder_temp.isNone && new_state.movement_speed.isNone &&
        new_state.retract.isNone && new_state.extruder_temp.isNone &&
        new_state.bed_temp.isNone)
  | .Delay msec => msec ≠ 0
  | .Arc start endp _ _ => start ≠ endp

/-- `unary_optimizer` from `src/src/optimizer.rs`: retain commands passing
`keepCommand`. -/
def unary_optimizer (cmds : List Command) : List Command :=
  cmds.filter keepCommand

/-- The pair-coalescing closure of `binary_optimizer`: `some merged` models
the `Ok(..)` (merge) outcome, `none` models `Err((first, second))`. -/
def coalesceStep (first second : Command) : Option Command :=
  match first, second with
  | .MoveAndExtrude f_start f_end, .MoveAndExtrude s_start s_end =>
      if f_end = s_start then
        if |(f_start.x - s_start.x) * (s_start.y - s_end.y) -
            (f_start.y - s_start.y) * (s_start.x - s_end.x)| < 1 / 100000 then
          some (.MoveAndExtrude f_start s_end)
        else none
      else none
  | .MoveTo _, .MoveTo s_end => some (.MoveTo s_end)
  | .SetState f_state, .SetState s_state => some (.SetState (f_state.combine s_state))
  | _, _ => none

/-- The accumulator loop of `Itertools::coalesce`: `pending` is the element
held back; a merged pair is retried against the next command. -/
def coalesceAux (pending : Command) : List Command → List Command
  | [] => [pending]
  | c :: rest =>
      match coalesceStep pending c with
      | some merged => coalesceAux merged rest
      | none => pending :: coalesceAux c rest

/-- `binary_optimizer` from `src/src/optimizer.rs`: `Itertools::coalesce`
over `coalesceStep`. -/
def binary_optimizer : List Command → List Command
  | [] => []
  | c :: rest => coalesceAux c rest

/-- The walk of `state_optomizer`: rewrite each `SetState` to its diff
against the running machine state, threading the updated running state. -/
def stateWalk (cur : StateChange) : List Command → List Command
  | [] => []
  | .SetState new_state :: rest =>
      let d := cur.state_diff new_state
      .SetState d.1 :: stateWalk d.2 rest
  | c :: rest => c :: stateWalk cur rest

/-- `state_optomizer` from `src/src/optimizer.rs` (source spelling kept):
walk the command list from a `StateChange::default()` running state. -/
def state_optomizer (cmds : List Command) : List Command :=
  stateWalk StateChange.default cmds

/-- One iteration of the `optimize_commands` loop body: the three passes in
source order. -/
def optimizePasses (cmds : List Command) : List Command :=
  binary_optimizer (unary_optimizer (state_optomizer cmds))

/-- The `while` loop of `optimize_commands`: run the passes, exit when the
length matches `size` (the length recorded before the passes ran), else
update `size` and repeat. The passes never increase the length, so the
length strictly decreases on every repeat; fuel `size + 1` therefore never
runs out (proved below). -/
def optimizeLoop : ℕ → List Command → ℕ → List Command
  | 0, cmds, _ => cmds
  | fuel + 1, cmds, size =>
      let next := optimizePasses cmds
      if next.length = size then next
      else optimizeLoop fuel next next.length

/-- `optimize_commands` from `src/src/optimizer.rs`. -/
def optimize_commands (cmds : List Command) : List Command :=
  optimizeLoop (cmds.length + 1) cmds cmds.length

/-- Mirror of `optimizeLoop` counting how many times the three passes run. -/
def optimizeLoopCount : ℕ → List Command → ℕ → ℕ
  | 0, _, _ => 0
  | fuel + 1, cmds, size =>
      let next := optimizePasses cmds
      if next.length = size then 1
      else 1 + optimizeLoopCount fuel next next.length

/-- Number of iterations (pass executions) `optimize_commands` performs. -/
def optimizeIterations (cmds : List Command) : ℕ :=
  optimizeLoopCount (cmds.length + 1) cmds cmds.length

/-- One field of the redundancy check of claim C4: a set field must differ
from the corresponding running-state field. -/
def fieldNotRedundant {α : Type} [DecidableEq α] (v cur : Option α) : Bool :=
  v.isNone || v ≠ cur

/-- Walk a command list carrying the running machine state (deltas applied
with `StateChange::combine`); check that no `SetState` sets a field to the
value the running state already holds immediately before it. -/
def checkNoRedundantSetState (cur : StateChange) : List Command → Bool
  | [] => true
  | .SetState st :: rest =>
      fieldNotRedundant st.extruder_temp cur.extruder_temp &&
      fieldNotRedundant st.bed_temp cur.bed_temp &&
      fieldNotRedundant st.movement_speed cur.movement_speed &&
      fieldNotRedundant st.retract cur.retract &&
      checkNoRedundantSetState (cur.combine st) rest
  | _ :: rest => checkNoRedundantSetState cur rest
/-! ## Settings (src/gladius_shared/src/settings.rs)

`f64` settings values are modelled as exact rationals.
-/

/-- Modelled from the spec: the solid-infill pattern enum of the shared
`types.rs`, which is absent from the snapshot; §6 lists the pattern set
{Linear, Rectilinear, Triangle, Cubic, Lightning}. Only its identity is
used by the settings code. -/
inductive SolidInfillTypes where
  | Linear | Rectilinear | Triangle | Cubic | Lightning
deriving DecidableEq, Repr

/-- Modelled from the spec: the partial-infill pattern enum of the shared
`types.rs`, absent from the snapshot; §6/§4.E list the pattern set
{Linear, Rectilinear, Triangle, Cubic, Lightning}. Only its identity is
used by the settings code. -/
inductive PartialInfillTypes where
  | Linear | Rectilinear | Triangle | Cubic | Lightning
deriving DecidableEq, Repr

/-- `MovementParameter`: one value per movement type. -/
structure MovementParameter where
  interior_inner_perimeter : ℚ
  interior_surface_perimeter : ℚ
  exterior_inner_perimeter : ℚ
  exterior_surface_perimeter : ℚ
  solid_top_infill : ℚ
  solid_infill : ℚ
  infill : ℚ
  travel : ℚ
  bridge : ℚ
  support : ℚ
deriving DecidableEq, Repr

/-- `FilamentSettings`. -/
structure FilamentSettings where
  diameter : ℚ
  density : ℚ
  cost : ℚ
  extruder_temp : ℚ
  bed_temp : ℚ
deriving DecidableEq, Repr

/-- `FanSettings`. -/
structure FanSettings where
  fan_speed : ℚ
  disable_fan_for_layers : ℕ
  slow_down_threshold : ℚ
  min_print_speed : ℚ
deriving DecidableEq, Repr

/-- `SupportSettings`. -/
structure SupportSettings where
  max_overhang_angle : ℚ
  support_spacing : ℚ
deriving DecidableEq, Repr

/-- `SkirtSettings`. -/
structure SkirtSettings where
  layers : ℕ
  distance : ℚ
deriving DecidableEq, Repr

/-- `RetractionWipeSettings`. -/
structure RetractionWipeSettings where
  speed : ℚ
  acceleration : ℚ
  distance : ℚ
deriving DecidableEq, Repr

/-- `LayerRange` from `src/gladius_shared/src/settings.rs`. -/
inductive LayerRange where
  | SingleLayer (layer : ℕ)
  | LayerCountRange (start finish : ℕ)
  | HeightRange (start finish : ℚ)
deriving DecidableEq, Repr

/-- `PartialLayerSettings`. -/
structure PartialLayerSettings where
  layer_height : Option ℚ
  layer_shrink_amount : Option ℚ
  speed : Option MovementParameter
  acceleration : Option MovementParameter
  extrusion_width : Option MovementParameter
  solid_infill_type : Option SolidInfillTypes
  partial_infill_type : Option PartialInfillTypes
  infill_percentage : Option ℚ
  infill_perimeter_overlap_percentage : Option ℚ
  inner_perimeters_first : Option Bool
  bed_temp : Option ℚ
  extruder_temp : Option ℚ
  retraction_wipe : Option RetractionWipeSettings
  retraction_length : Option ℚ
deriving DecidableEq, Repr

/-- `PartialLayerSettings::default()`: every field `None`. -/
def PartialLayerSettings.default : PartialLayerSettings :=
  ⟨none, none, none, none, none, none, none, none, none, none, none, none, none, none⟩

/-- `PartialLayerSettings::combine`: `self` wins on every field it sets. -/
def PartialLayerSettings.combine (self other : PartialLayerSettings) : PartialLayerSettings :=
  { layer_height := self.layer_height.or other.layer_height,
    extrusion_width := self.extrusion_width.or other.extrusion_width,
    speed := self.speed.or other.speed,
    acceleration := self.acceleration.or other.acceleration,
    infill_percentage := self.infill_percentage.or other.infill_percentage,
    inner_perimeters_first := self.inner_perimeters_first.or other.inner_perimeters_first,
    bed_temp := self.bed_temp.or other.bed_temp,
    extruder_temp := self.extruder_temp.or other.extruder_temp,
    retraction_wipe := self.retraction_wipe.or other.retraction_wipe,
    infill_perimeter_overlap_percentage :=
      self.infill_perimeter_overlap_percentage.or other.infill_perimeter_overlap_percentage,
    solid_infill_type := self.solid_infill_type.or other.solid_infill_type,
    partial_infill_type := self.partial_infill_type.or other.partial_infill_type,
    layer_shrink_amount := self.layer_shrink_amount.or other.layer_shrink_amount,
    retraction_length := self.retraction_length.or other.retraction_length }

/-- `LayerSettings`: the per-layer resolved overlay. -/
structure LayerSettings where
  layer_height : ℚ
  layer_shrink_amount : Option ℚ
  speed : MovementParameter
  acceleration : MovementParameter
  extrusion_width : MovementParameter
  solid_infill_type : SolidInfillTypes
  partial_infill_type : PartialInfillTypes
  infill_percentage : ℚ
  infill_perimeter_overlap_percentage : ℚ
  inner_perimeters_first : Bool
  bed_temp : ℚ
  extruder_temp : ℚ
  retraction_wipe : Option RetractionWipeSettings
  retraction_length : ℚ
deriving DecidableEq, Repr

/-- `Settings`: the complete settings snapshot (field set and order as in the
source struct). -/
structure Settings where
  layer_height : ℚ
  extrusion_width : MovementParameter
  filament : FilamentSettings
  fan : FanSettings
  skirt : Option SkirtSettings
  support : Option SupportSettings
  nozzle_diameter : ℚ
  retract_length : ℚ
  retract_lift_z : ℚ
  retract_speed : ℚ
  retraction_wipe : Option RetractionWipeSettings
  speed : MovementParameter
  acceleration : MovementParameter
  infill_percentage : ℚ
  inner_perimeters_first : Bool
  number_of_perimeters : ℕ
  top_layers : ℕ
  bottom_layers : ℕ
  print_x : ℚ
  print_y : ℚ
  print_z : ℚ
  brim_width : Option ℚ
  layer_shrink_amount : Option ℚ
  minimum_retract_distance : ℚ
  infill_perimeter_overlap_percentage : ℚ
  solid_infill_type : SolidInfillTypes
  partial_infill_type : PartialInfillTypes
  starting_instructions : String
  ending_instructions : String
  before_layer_change_instructions : String
  after_layer_change_instructions : String
  object_change_instructions : String
  max_acceleration_x : ℚ
  max_acceleration_y : ℚ
  max_acceleration_z : ℚ
  max_acceleration_e : ℚ
  max_acceleration_extruding : ℚ
  max_acceleration_travel : ℚ
  max_acceleration_retracting : ℚ
  max_jerk_x : ℚ
  max_jerk_y : ℚ
  max_jerk_z : ℚ
  max_jerk_e : ℚ
  minimum_feedrate_print : ℚ
  minimum_feedrate_travel : ℚ
  maximum_feedrate_x : ℚ
  maximum_feedrate_y : ℚ
  maximum_feedrate_z : ℚ
  maximum_feedrate_e : ℚ
  layer_settings : List (LayerRange × PartialLayerSettings)

/-- The matching test of `Settings::get_layer_settings`' `filter` closure
(all bounds inclusive). -/
def layerRangeMatches (lr : LayerRange) (layer : ℕ) (height : ℚ) : Bool :=
  match lr with
  | .LayerCountRange start finish => start ≤ layer && layer ≤ finish
  | .HeightRange start finish => start ≤ height && height ≤ finish
  | .SingleLayer filter_layer => filter_layer = layer

/-- `Settings::get_layer_settings`: fold the matching `PartialLayerSettings`
(in list order, earliest first) with `combine` starting from the default,
then fall back to the global settings on unset fields. -/
def Settings.get_layer_settings (self : Settings) (layer : ℕ) (height : ℚ) : LayerSettings :=
  let changes := (self.layer_settings.filter
      (fun p => layerRangeMatches p.1 layer height)).foldl
      (fun a b => a.combine b.2) PartialLayerSettings.default
  { layer_height := changes.layer_height.getD self.layer_height,
    layer_shrink_amount := changes.layer_shrink_amount.or self.layer_shrink_amount,
    speed := changes.speed.getD self.speed,
    acceleration := changes.acceleration.getD self.acceleration,
    extrusion_width := changes.extrusion_width.getD self.extrusion_width,
    solid_infill_type := changes.solid_infill_type.getD self.solid_infill_type,
    partial_infill_type := changes.partial_infill_type.getD self.partial_infill_type,
    infill_percentage := changes.infill_percentage.getD self.infill_percentage,
    infill_perimeter_overlap_percentage :=
      changes.infill_perimeter_overlap_percentage.getD
        self.infill_perimeter_overlap_percentage,
    inner_perimeters_first := changes.inner_perimeters_first.getD self.inner_perimeters_first,
    bed_temp := changes.bed_temp.getD self.filament.bed_temp,
    extruder_temp := changes.extruder_temp.getD self.filament.extruder_temp,
    retraction_wipe := changes.retraction_wipe.or self.retraction_wipe,
    retraction_length := changes.retraction_length.getD self.retract_length }

/-- `SlicerWarnings` (the variants produced by settings validation). -/
inductive SlicerWarnings where
  | LayerSizeTooLow (layer_height nozzle_diameter : ℚ)
  | LayerSizeTooHigh (layer_height nozzle_diameter : ℚ)
  | ExtrusionWidthTooLow (extrusion_width nozzle_diameter : ℚ)
  | ExtrusionWidthTooHigh (extrusion_width nozzle_diameter : ℚ)
  | AccelerationTooLow (acceleration speed bed_size : ℚ)
  | SkirtAndBrimOverlap (skirt_distance brim_width : ℚ)
  | NozzleTemperatureTooLow (temp : ℚ)
  | NozzleTemperatureTooHigh (temp : ℚ)
deriving DecidableEq, Repr

/-- `SlicerErrors` (the variants relevant to the modelled components). -/
inductive SlicerErrors where
  | SettingLessThanOrEqualToZero (setting : String) (value : ℚ)
  | SettingLessThanZero (setting : String) (value : ℚ)
  | TowerGeneration
  | SliceGeneration
deriving DecidableEq, Repr

/-- `SettingsValidationResult`. -/
inductive SettingsValidationResult where
  | NoIssue
  | Warning (w : SlicerWarnings)
  | Error (e : SlicerErrors)
deriving DecidableEq, Repr

/-- Short-circuit sequencing of validation checks: keep the first non-
`NoIssue` result (the Rust early `return`). -/
def SettingsValidationResult.andThen (r : SettingsValidationResult)
    (rest : Unit → SettingsValidationResult) : SettingsValidationResult :=
  match r with
  | .NoIssue => rest ()
  | _ => r

/-- One `setting_less_than_or_equal_to_zero!` check. -/
def checkLeZero (name : String) (value : ℚ) : SettingsValidationResult :=
  if value ≤ 0 then .Error (.SettingLessThanOrEqualToZero name value) else .NoIssue

/-- One `setting_less_than_zero!` check. -/
def checkLtZero (name : String) (value : ℚ) : SettingsValidationResult :=
  if value < 0 then .Error (.SettingLessThanZero name value) else .NoIssue

/-- One `option_setting_less_than_or_equal_to_zero!` check (the macro emits
`SettingLessThanOrEqualToZero`). -/
def checkOptLeZero (name : String) (value : Option ℚ) : SettingsValidationResult :=
  match value with
  | some v => if v ≤ 0 then .Error (.SettingLessThanOrEqualToZero name v) else .NoIssue
  | none => .NoIssue

/-- One `option_setting_less_than_zero!` check (the macro emits
`SettingLessThanOrEqualToZero` for the option variant as in the source). -/
def checkOptLtZero (name : String) (value : Option ℚ) : SettingsValidationResult :=
  match value with
  | some v => if v < 0 then .Error (.SettingLessThanOrEqualToZero name v) else .NoIssue
  | none => .NoIssue

/-- One low/high window check emitting the given warnings. -/
def checkWindow (low high : ℚ) (value : ℚ) (wLow wHigh : SlicerWarnings) :
    SettingsValidationResult :=
  if value < low then .Warning wLow
  else if value > high then .Warning wHigh
  else .NoIssue

/-- One extrusion-width channel of `check_extrusions`. -/
def checkExtrusionChannel (value nozzle_diameter : ℚ) : SettingsValidationResult :=
  checkWindow (nozzle_diameter * (6/10)) (nozzle_diameter * 2) value
    (.ExtrusionWidthTooLow value nozzle_diameter)
    (.ExtrusionWidthTooHigh value nozzle_diameter)

/-- `check_extrusions`: the nine channels in source order (travel is not
checked). -/
def check_extrusions (extrusion_width : MovementParameter) (nozzle_diameter : ℚ) :
    SettingsValidationResult :=
  (checkExtrusionChannel extrusion_width.infill nozzle_diameter).andThen fun _ =>
  (checkExtrusionChannel extrusion_width.solid_top_infill nozzle_diameter).andThen fun _ =>
  (checkExtrusionChannel extrusion_width.solid_infill nozzle_diameter).andThen fun _ =>
  (checkExtrusionChannel extrusion_width.bridge nozzle_diameter).andThen fun _ =>
  (checkExtrusionChannel extrusion_width.support nozzle_diameter).andThen fun _ =>
  (checkExtrusionChannel extrusion_width.interior_surface_perimeter nozzle_diameter).andThen
    fun _ =>
  (checkExtrusionChannel extrusion_width.interior_inner_perimeter nozzle_diameter).andThen
    fun _ =>
  (checkExtrusionChannel extrusion_width.exterior_inner_perimeter nozzle_diameter).andThen
    fun _ =>
  checkExtrusionChannel extrusion_width.exterior_surface_perimeter nozzle_diameter

/-- One movement-type channel of `check_accelerations`: warn when
`speed² / (2·acceleration)` strictly exceeds the smaller bed dimension. -/
def checkAccelerationChannel (acceleration speed min_bed_dimension : ℚ) :
    SettingsValidationResult :=
  if speed * speed / (2 * acceleration) > min_bed_dimension then
    .Warning (.AccelerationTooLow acceleration speed min_bed_dimension)
  else .NoIssue

/-- `check_accelerations`: the nine channels in source order (travel is not
checked). -/
def check_accelerations (acceleration speed : MovementParameter)
    (min_bed_dimension : ℚ) : SettingsValidationResult :=
  (checkAccelerationChannel acceleration.infill speed.infill min_bed_dimension).andThen
    fun _ =>
  (checkAccelerationChannel acceleration.solid_top_infill speed.solid_top_infill
    min_bed_dimension).andThen fun _ =>
  (checkAccelerationChannel acceleration.solid_infill speed.solid_infill
    min_bed_dimension).andThen fun _ =>
  (checkAccelerationChannel acceleration.bridge speed.bridge min_bed_dimension).andThen
    fun _ =>
  (checkAccelerationChannel acceleration.support speed.support min_bed_dimension).andThen
    fun _ =>
  (checkAccelerationChannel acceleration.interior_surface_perimeter
    speed.interior_surface_perimeter min_bed_dimension).andThen fun _ =>
  (checkAccelerationChannel acceleration.interior_inner_perimeter
    speed.interior_inner_perimeter min_bed_dimension).andThen fun _ =>
  (checkAccelerationChannel acceleration.exterior_inner_perimeter
    speed.exterior_inner_perimeter min_bed_dimension).andThen fun _ =>
  checkAccelerationChannel acceleration.exterior_surface_perimeter
    speed.exterior_surface_perimeter min_bed_dimension

/-- The per-entry body of the `layer_settings` loop of `validate_settings`. -/
def validateLayerSettingsEntry (self : Settings) (pls : PartialLayerSettings) :
    SettingsValidationResult :=
  (checkOptLeZero "layer_height" pls.layer_height).andThen fun _ =>
  (checkOptLtZero "infill_percentage" pls.infill_percentage).andThen fun _ =>
  (checkOptLtZero "retraction_length" pls.retraction_length).andThen fun _ =>
  (match pls.layer_height with
   | some layer_height =>
       checkWindow (self.nozzle_diameter * (2/10)) (self.nozzle_diameter * (8/10))
         layer_height
         (.LayerSizeTooLow self.layer_height self.nozzle_diameter)
         (.LayerSizeTooHigh self.layer_height self.nozzle_diameter)
   | none => SettingsValidationResult.NoIssue).andThen fun _ =>
  (match pls.extruder_temp with
   | some extruder_temp =>
       checkWindow 140 260 extruder_temp
         (.NozzleTemperatureTooLow self.filament.extruder_temp)
         (.NozzleTemperatureTooHigh self.filament.extruder_temp)
   | none => SettingsValidationResult.NoIssue).andThen fun _ =>
  (match pls.extrusion_width with
   | some extrusion_width => check_extrusions extrusion_width self.nozzle_diameter
   | none => SettingsValidationResult.NoIssue).andThen fun _ =>
  check_accelerations (pls.acceleration.getD self.acceleration)
    (pls.speed.getD self.speed) (min self.print_x self.print_y)

/-- The `layer_settings` loop of `validate_settings` (first issue wins). -/
def validateLayerSettingsList (self : Settings) :
    List (LayerRange × PartialLayerSettings) → SettingsValidationResult
  | [] => .NoIssue
  | entry :: rest =>
      (validateLayerSettingsEntry self entry.2).andThen fun _ =>
        validateLayerSettingsList self rest

/-- `Settings::validate_settings`: the full check chain in source order. -/
def Settings.validate_settings (self : Settings) : SettingsValidationResult :=
  (checkLeZero "print_x" self.print_x).andThen fun _ =>
  (checkLeZero "print_y" self.print_y).andThen fun _ =>
  (checkLeZero "print_z" self.print_z).andThen fun _ =>
  (checkLeZero "nozzle_diameter" self.nozzle_diameter).andThen fun _ =>
  (checkLeZero "layer_height" self.layer_height).andThen fun _ =>
  (checkLeZero "retract_speed" self.retract_speed).andThen fun _ =>
  (checkLeZero "max_acceleration_x" self.max_acceleration_x).andThen fun _ =>
  (checkLeZero "max_acceleration_y" self.max_acceleration_y).andThen fun _ =>
  (checkLeZero "max_acceleration_z" self.max_acceleration_z).andThen fun _ =>
  (checkLeZero "max_acceleration_e" self.max_acceleration_e).andThen fun _ =>
  (checkLeZero "max_jerk_x" self.max_jerk_x).andThen fun _ =>
  (checkLeZero "max_jerk_y" self.max_jerk_y).andThen fun _ =>
  (checkLeZero "max_jerk_z" self.max_jerk_z).andThen fun _ =>
  (checkLeZero "max_jerk_e" self.max_jerk_e).andThen fun _ =>
  (checkLeZero "max_acceleration_extruding" self.max_acceleration_extruding).andThen fun _ =>
  (checkLeZero "max_acceleration_travel" self.max_acceleration_travel).andThen fun _ =>
  (checkLeZero "max_acceleration_retracting" self.max_acceleration_retracting).andThen
    fun _ =>
  (checkLeZero "maximum_feedrate_x" self.maximum_feedrate_x).andThen fun _ =>
  (checkLeZero "maximum_feedrate_y" self.maximum_feedrate_y).andThen fun _ =>
  (checkLeZero "maximum_feedrate_z" self.maximum_feedrate_z).andThen fun _ =>
  (checkLeZero "maximum_feedrate_e" self.maximum_feedrate_e).andThen fun _ =>
  (checkLtZero "number_of_perimeters" (self.number_of_perimeters : ℚ)).andThen fun _ =>
  (checkLtZero "infill_percentage" self.infill_percentage).andThen fun _ =>
  (checkLtZero "top_layers" (self.top_layers : ℚ)).andThen fun _ =>
  (checkLtZero "bottom_layers" (self.bottom_layers : ℚ)).andThen fun _ =>
  (checkLtZero "retract_length" self.retract_length).andThen fun _ =>
  (checkLtZero "retract_lift_z" self.retract_lift_z).andThen fun _ =>
  (checkLtZero "minimum_feedrate_travel" self.minimum_feedrate_travel).andThen fun _ =>
  (checkLtZero "minimum_feedrate_print" self.minimum_feedrate_print).andThen fun _ =>
  (checkLtZero "minimum_retract_distance" self.minimum_retract_distance).andThen fun _ =>
  (checkWindow (self.nozzle_diameter * (2/10)) (self.nozzle_diameter * (8/10))
    self.layer_height
    (.LayerSizeTooLow self.layer_height self.nozzle_diameter)
    (.LayerSizeTooHigh self.layer_height self.nozzle_diameter)).andThen fun _ =>
  (check_extrusions self.extrusion_width self.nozzle_diameter).andThen fun _ =>
  (check_accelerations self.acceleration self.speed
    (min self.print_x self.print_y)).andThen fun _ =>
  (match self.skirt, self.brim_width with
   | some skirt, some brim =>
       if skirt.distance ≤ brim then
         SettingsValidationResult.Warning (.SkirtAndBrimOverlap skirt.distance brim)
       else SettingsValidationResult.NoIssue
   | _, _ => SettingsValidationResult.NoIssue).andThen fun _ =>
  (checkWindow 140 260 self.filament.extruder_temp
    (.NozzleTemperatureTooLow self.filament.extruder_temp)
    (.NozzleTemperatureTooHigh self.filament.extruder_temp)).andThen fun _ =>
  validateLayerSettingsList self self.layer_settings

/-- The `PartialLayerSettings` of the overlay entries matching a layer,
in list order (earliest first); the `filter`-then-fold source of
`Settings::get_layer_settings`. -/
def matchingPartials (s : Settings) (layer : ℕ) (height : ℚ) : List PartialLayerSettings :=
  (s.layer_settings.filter (fun p => layerRangeMatches p.1 layer height)).map Prod.snd

/-! ## Pipeline orchestration skeleton (src/gladius_core/src/pipeline.rs)

The heavy pipeline stages (tower construction, slicing, passes, conversion)
are opaque to the orchestration logic of `custom_slicer_pipeline`: only
their success or failure steers control flow and the callback sequence.
They are therefore modelled as stage outcomes supplied as input, while the
orchestration skeleton itself — the order of callback invocations and the
`?` short-circuits — is translated line by line from the source. -/

/-- One callback invocation on the `PipelineCallbacks` trait object. -/
inductive PipelineEvent where
  | StateUpdate (message : String)
  | SettingsWarning (warning : SlicerWarnings)
  | Commands
  | CalculatedValues
  | SliceFinished
deriving DecidableEq, Repr

/-- Outcomes of the fallible pipeline stages, in invocation order
(`validate_settings`, `check_model_bounds`, `create_towers`, `slice`,
`obj_pass.pass`, `check_moves_bounds`, `convert`). -/
structure PipelineStages where
  validation : SettingsValidationResult
  model_bounds : Except SlicerErrors Unit
  towers : Except SlicerErrors Unit
  slices : Except SlicerErrors Unit
  obj_pass : Except SlicerErrors Unit
  moves_bounds : Except SlicerErrors Unit
  convert : Except SlicerErrors Unit
deriving Repr

/-- `handle_setting_validation`: a warning is forwarded to
`handle_settings_warning` and slicing continues; an error aborts. -/
def handle_setting_validation (res : SettingsValidationResult) :
    Except SlicerErrors (List PipelineEvent) :=
  match res with
  | .NoIssue => .ok []
  | .Warning w => .ok [.SettingsWarning w]
  | .Error e => .error e

/-- `custom_slicer_pipeline`: the orchestration skeleton. Returns the
pipeline result together with the ordered list of callback invocations. -/
def custom_slicer_pipeline (st : PipelineStages) :
    Except SlicerErrors Unit × List PipelineEvent :=
  match handle_setting_validation st.validation with
  | .error e => (.error e, [])
  | .ok warnEvents =>
    match st.model_bounds with
    | .error e => (.error e, warnEvents)
    | .ok _ =>
      let ev1 := warnEvents ++ [.StateUpdate "Creating Towers"]
      match st.towers with
      | .error e => (.error e, ev1)
      | .ok _ =>
        let ev2 := ev1 ++ [.StateUpdate "Slicing"]
        match st.slices with
        | .error e => (.error e, ev2)
        | .ok _ =>
          let ev3 := ev2 ++ [.StateUpdate "Generating Moves"]
          match st.obj_pass with
          | .error e => (.error e, ev3)
          | .ok _ =>
            match st.moves_bounds with
            | .error e => (.error e, ev3)
            | .ok _ =>
              let ev4 := ev3 ++ [.StateUpdate "Optimizing",
                .StateUpdate "Slowing Layer Down", .Commands,
                .StateUpdate "Outputting G-code"]
              match st.convert with
              | .error e => (.error e, ev4)
              | .ok _ =>
                (.ok (), ev4 ++ [.StateUpdate "Calculate Values", .CalculatedValues])

/-- `slicer_pipeline` delegates to `custom_slicer_pipeline` with the default
passes. -/
def slicer_pipeline (st : PipelineStages) :
    Except SlicerErrors Unit × List PipelineEvent :=
  custom_slicer_pipeline st

/-! ## A stable sort

`Vec::sort` (and rayon's `par_sort_by`) are stable sorts; a stable sort's
output is uniquely determined by the comparison, so the concrete stable
insertion sort below is a faithful model. It is structurally recursive and
therefore evaluates inside the kernel. -/

/-- Insert `a` into a sorted list, after any elements `b` with `le b a`
(stable insertion). -/
def insertSorted {α : Type} (le : α → α → Bool) (a : α) : List α → List α
  | [] => [a]
  | b :: t => if le b a then b :: insertSorted le a t else a :: b :: t

/-- Stable insertion sort: fold the input left to right. -/
def stableSort {α : Type} (le : α → α → Bool) (l : List α) : List α :=
  l.foldl (fun acc a => insertSorted le a acc) []

/-! ## Slicing driver (src/gladius_core/src/slicing.rs) -/

/-- Modelled from the spec: the per-layer `Slice` record of §3 (the shared
`types.rs` defining it is absent from the snapshot). Only the fields the
slicing driver orders on are carried. -/
structure Slice where
  bottom_height : ℚ
  top_height : ℚ
  layer_index : ℕ
deriving DecidableEq, Repr

/-- An `Object`: the ordered list of slices of one mesh. -/
structure Object where
  layers : List Slice
deriving DecidableEq, Repr

/-- The comparison of the slicing driver's final `par_sort_by`
(`top_height` ascending). -/
def sliceLe (a b : Slice) : Bool := a.top_height ≤ b.top_height

namespace Slicing

/-- `slice` from `src/gladius_core/src/slicing.rs`, abstracted over the
per-tower layer results: `delivered` holds, per tower, the computed slices
in the (arbitrary) order the `par_bridge` delivered them, or the first
error of that tower. The driver short-circuits errors, sorts each tower's
slices by `top_height` and wraps them into an `Object`
(the name `slice` itself is taken by the Lean prelude). -/
def slice (delivered : List (Except SlicerErrors (List Slice))) :
    Except SlicerErrors (List Object) :=
  delivered.mapM (fun r => r.map fun ls => Object.mk (stableSort sliceLe ls))

end Slicing

/-! ## Tower rings and fragment joining (src/src/tower.rs)

Vertex coordinates (`f64`) are modelled as exact rationals. The fragment
vector is modelled as a `List`; `Vec::sort` is the stable sort above and
`slice::binary_search_by_key` is translated bisection step by bisection
step (with duplicate keys it lands on whichever occurrence the bisection
path meets, exactly as the Rust search does). Ring element access through
`first()/last()` uses `head?/getLast?`; the `expect` calls of the source
make an empty element list a panic, so the `none` branches of the model
are inert on all states the source can reach. -/

/-- `TowerRingElement`: a face or a directed edge, identified by indices
into the per-mesh triangle and vertex arrays. -/
inductive TowerRingElement where
  | Face (triangle_index : ℕ)
  | Edge (start_index end_index : ℕ)
deriving DecidableEq, Repr

/-- The `Ord` impl of `TowerRingElement`: every `Edge` is less than every
`Face`; `Edge`s compare lexicographically by (start, end); `Face`s by
triangle index. -/
def cmpElement : TowerRingElement → TowerRingElement → Ordering
  | .Face s, .Face o => compare s o
  | .Face _, .Edge _ _ => .gt
  | .Edge _ _, .Face _ => .lt
  | .Edge ssi sei, .Edge osi oei => (compare ssi osi).then (compare sei oei)

/-- `Option` ordering as derived by Rust (`None` precedes `Some`). -/
def cmpOptElement : Option TowerRingElement → Option TowerRingElement → Ordering
  | none, none => .eq
  | none, some _ => .lt
  | some _, none => .gt
  | some a, some b => cmpElement a b

/-- `TowerRing`: a fragment or complete ring of alternating elements. -/
structure TowerRing where
  elements : List TowerRingElement
deriving DecidableEq, Repr

/-- `TowerRing::is_complete_ring`: first element equals last and length
exceeds 3. -/
def TowerRing.is_complete_ring (r : TowerRing) : Bool :=
  r.elements.head? = r.elements.getLast? && r.elements.length > 3

/-- `TowerRing::join_rings_in_place`: extend `first` with all but the first
element of `second`. -/
def TowerRing.join_rings_in_place (first second : TowerRing) : TowerRing :=
  ⟨first.elements ++ second.elements.drop 1⟩

/-- The `Ord` impl of `TowerRing`: compare the first elements (as options). -/
def cmpRing (a b : TowerRing) : Ordering :=
  cmpOptElement a.elements.head? b.elements.head?

/-- The non-strict comparison used to model the stable `Vec::sort` by
`cmpRing`. -/
def ringLe (a b : TowerRing) : Bool := cmpRing a b ≠ .gt

/-- The accumulating step of the `split_on_edge` loop: an `Edge` ending at
the split vertex closes the current run into a fragment; any other element
extends the current run. -/
def splitStep (edge : ℕ) (acc : List TowerRingElement × List (List TowerRingElement))
    (e : TowerRingElement) : List TowerRingElement × List (List TowerRingElement) :=
  match e with
  | .Edge _ end_index =>
      if end_index = edge then ([], acc.2 ++ [acc.1]) else (acc.1 ++ [e], acc.2)
  | .Face _ => (acc.1 ++ [e], acc.2)

/-- `TowerRing::split_on_edge`: cut the ring at every edge ending at the
given vertex; the trailing run is joined onto the first fragment (the ring
wraps around); fragments of length ≤ 1 are discarded. -/
def TowerRing.split_on_edge (r : TowerRing) (edge : ℕ) : List TowerRing :=
  let res := r.elements.foldl (splitStep edge) ([], [])
  let frags :=
    match res.2 with
    | [] => [res.1]
    | f0 :: rest => if f0.isEmpty then res.1 :: rest else (res.1 ++ f0.drop 1) :: rest
  (frags.filter (fun f => f.length > 1)).map TowerRing.mk

/-- One bisection step of `slice::binary_search_by_key` on the fragment
vector: compare the probed fragment's first element with the target key.
The fuel argument only bounds the recursion; `right - left` many steps
always suffice. -/
def binarySearchAux (frags : List TowerRing) (target : Option TowerRingElement) :
    ℕ → ℕ → ℕ → Option ℕ
  | 0, _, _ => none
  | fuel + 1, left, right =>
      if left < right then
        let mid := left + (right - left) / 2
        match cmpOptElement ((frags.getD mid ⟨[]⟩).elements.head?) target with
        | .lt => binarySearchAux frags target fuel (mid + 1) right
        | .gt => binarySearchAux frags target fuel left mid
        | .eq => some mid
      else none

/-- `binary_search_by_key` over the whole fragment vector, keyed by the
first element of each fragment. -/
def binarySearchByFirst (frags : List TowerRing) (target : Option TowerRingElement) :
    Option ℕ :=
  binarySearchAux frags target frags.length 0 frags.length

/-- The `while first_pos > 0` loop of `join_fragments`. On a successful
search at a different index the found fragment is removed and appended to
the current one (adjusting `first_pos` when the removal shifts it); on a
self-match or a failed search `first_pos` moves down. The fuel argument
only bounds the recursion; `first_pos + length + 1` many steps always
suffice, since every iteration decreases `first_pos + length`. -/
def joinLoop : ℕ → List TowerRing → ℕ → List TowerRing
  | 0, frags, _ => frags
  | fuel + 1, frags, first_pos =>
      if 0 < first_pos then
        match binarySearchByFirst frags ((frags.getD first_pos ⟨[]⟩).elements.getLast?) with
        | some index =>
            if index = first_pos then joinLoop fuel frags (first_pos - 1)
            else
              let fp2 := if index < first_pos then first_pos - 1 else first_pos
              let removed := frags.getD index ⟨[]⟩
              let frags2 := frags.eraseIdx index
              let joined := TowerRing.join_rings_in_place (frags2.getD fp2 ⟨[]⟩) removed
              joinLoop fuel (frags2.set fp2 joined) fp2
        | none => joinLoop fuel frags (first_pos - 1)
      else frags

/-- `join_fragments` from `src/src/tower.rs`: sort the fragments by their
first element, then repeatedly join fragments whose first element matches
the current fragment's last element. -/
def join_fragments (fragments : List TowerRing) : List TowerRing :=
  if fragments.length = 0 then fragments
  else
    let sorted := stableSort ringLe fragments
    joinLoop (sorted.length - 1 + sorted.length + 1) sorted (sorted.length - 1)

/-! ## The tower iterator (src/src/tower.rs) -/

/-- `Vertex` (coordinates as exact rationals). -/
structure Vertex where
  x : ℚ
  y : ℚ
  z : ℚ
deriving DecidableEq, Repr

/-- `TowerVertex`: a heap event carrying the ring fragments whose lowest
endpoint is this vertex. -/
structure TowerVertex where
  next_ring_fragments : List TowerRing
  start_index : ℕ
  start_vert : Vertex
deriving DecidableEq, Repr

/-- The state of `TriangleTowerIterator`: the remaining event heap is
modelled as the list of events in pop order (the heap pops the smallest
vertex in the (z, y, x) order first). -/
structure TowerIterState where
  heap : List TowerVertex
  z_height : ℚ
  active_rings : List TowerRing
deriving DecidableEq, Repr

/-- The body of one `advance_to_height` loop iteration: split every active
ring on the popped vertex, add the popped vertex's own fragments, and
re-join. -/
def processVertex (v : TowerVertex) (active : List TowerRing) : List TowerRing :=
  join_fragments
    ((active.flatMap (fun r => r.split_on_edge v.start_index)) ++ v.next_ring_fragments)

/-- `is_complete_ring` over a whole active set. -/
def allComplete (rings : List TowerRing) : Bool :=
  rings.all (fun r => r.is_complete_ring)

/-- The `while` loop of `advance_to_height`: pop while the lowest remaining
vertex is strictly below the target, process it, and fail with
`TowerGeneration` as soon as an active ring is incomplete. -/
def advanceLoop : List TowerVertex → List TowerRing → ℚ →
    Except SlicerErrors (List TowerVertex × List TowerRing)
  | [], active, _ => .ok ([], active)
  | v :: rest, active, z =>
      if v.start_vert.z < z then
        let newActive := processVertex v active
        if allComplete newActive then advanceLoop rest newActive z
        else .error .TowerGeneration
      else .ok (v :: rest, active)

/-- `TriangleTowerIterator::advance_to_height`: on success the stored
height becomes the requested `z`. -/
def TriangleTowerIterator.advance_to_height (s : TowerIterState) (z : ℚ) :
    Except SlicerErrors TowerIterState :=
  match advanceLoop s.heap s.active_rings z with
  | .error e => .error e
  | .ok (heap2, active2) => .ok ⟨heap2, z, active2⟩

/-- The active set after processing the first `j` popped vertices. -/
def stageActive (s : TowerIterState) (z : ℚ) (j : ℕ) : List TowerRing :=
  ((s.heap.takeWhile fun v => decide (v.start_vert.z < z)).take j).foldl
    (fun act v => processVertex v act) s.active_rings

/-! ## Ring arrangements (the hypothesis of the tower-join property)

A multiset of fragments "arranged into N disjoint complete rings" is a
partition of the fragment list into groups, each group a cyclic chain of
fragments whose seams match, composing a complete ring. -/

/-- Edge/Face discriminator. -/
def isEdgeElement : TowerRingElement → Bool
  | .Edge _ _ => true
  | .Face _ => false

/-- A fragment alternates between edges and faces. -/
def alternatingElements : List TowerRingElement → Bool
  | [] => true
  | [_] => true
  | a :: b :: t => (isEdgeElement a != isEdgeElement b) && alternatingElements (b :: t)

/-- Two fragments seam together: the last element of the first equals the
first element of the second. -/
def seam (a b : TowerRing) : Prop := a.elements.getLast? = b.elements.head?

/-- The elements of the ring composed by chaining a group of fragments
(each join drops the duplicated seam element, as
`TowerRing::join_rings_in_place` does). -/
def chainElements : List TowerRing → List TowerRingElement
  | [] => []
  | f :: rest => f.elements ++ rest.flatMap (fun r => r.elements.drop 1)

/-- A nonempty group of fragments whose consecutive seams match, the last
wrapping around to the first. -/
def CyclicChain (g : List TowerRing) : Prop :=
  g ≠ [] ∧ List.Chain' seam g ∧ seam (g.getLastD ⟨[]⟩) (g.headD ⟨[]⟩)

/-- `fragments` can be arranged into `groups.length` disjoint complete
rings: the fragments partition into cyclically chained groups; every
fragment alternates and has at least two elements; each composed ring has
more than three elements (is a complete ring) with pairwise distinct
elements apart from the closing repetition; and distinct rings share no
element. -/
structure RingArrangement (groups : List (List TowerRing))
    (fragments : List TowerRing) : Prop where
  perm : fragments.Perm groups.flatten
  frag_len : ∀ g ∈ groups, ∀ f ∈ g, 2 ≤ f.elements.length
  frag_alt : ∀ g ∈ groups, ∀ f ∈ g, alternatingElements f.elements = true
  chained : ∀ g ∈ groups, CyclicChain g
  ring_len : ∀ g ∈ groups, 3 < (chainElements g).length
  ring_nodup : ∀ g ∈ groups, (chainElements g).dropLast.Nodup
  disjoint : groups.Pairwise (fun g h => ∀ x ∈ chainElements g, x ∉ chainElements h)

/-- Offset of the `i`-th fragment's first element inside the composed
ring. -/
def chainOffset (g : List TowerRing) : ℕ → ℕ
  | 0 => 0
  | i + 1 => chainOffset g i + ((g.getD i ⟨[]⟩).elements.length - 1)


/-! ### The joining loop invariant -/

/-- Invariant of one group (a partially merged ring) during the joining
loop. -/
structure GroupInv (g : List TowerRing) : Prop where
  nonempty : g ≠ []
  chained : CyclicChain g
  mem_len : ∀ f ∈ g, 2 ≤ f.elements.length
  heads_nodup : (g.map (fun f => f.elements.head?)).Nodup
  total_len : 4 ≤ (g.map (fun f => f.elements.length)).sum + 1 - g.length
  incomplete : 2 ≤ g.length → ∀ f ∈ g, ¬ f.elements.head? = f.elements.getLast?

/-- Invariant of the `join_fragments` loop state. -/
structure JoinInv (frags : List TowerRing) (fp : ℕ)
    (groups : List (List TowerRing)) : Prop where
  perm : frags.Perm groups.flatten
  sorted : List.Pairwise (fun a b => ringLe a b = true) frags
  heads_nodup : (frags.map (fun f => f.elements.head?)).Nodup
  mem_len : ∀ f ∈ frags, 2 ≤ f.elements.length
  groups_inv : ∀ g ∈ groups, GroupInv g
  fp_lt : fp < frags.length
  above_complete : ∀ i (hi : i < frags.length), fp < i →
    (frags[i]).is_complete_ring = true


/-- A concrete `Settings` value for the acceleration edge case:
`speed.infill = 200`, `acceleration.infill = 100`,
`print_x = print_y = 200`, every other field valid
(`200² / (2·100) = 200 = min(print_x, print_y)`). -/
def settingsAccelEdge : Settings :=
  { layer_height := 1/5,
    extrusion_width := ⟨2/5, 2/5, 2/5, 2/5, 2/5, 2/5, 2/5, 2/5, 2/5, 2/5⟩,
    filament := ⟨7/4, 124/100, 2499/100, 210, 60⟩,
    fan := ⟨100, 1, 15, 15⟩,
    skirt := none,
    support := none,
    nozzle_diameter := 2/5,
    retract_length := 4/5,
    retract_lift_z := 3/5,
    retract_speed := 35,
    retraction_wipe := none,
    speed := ⟨40, 40, 40, 40, 40, 40, 200, 180, 30, 50⟩,
    acceleration := ⟨900, 900, 800, 800, 1000, 1000, 100, 1000, 1000, 1000⟩,
    infill_percentage := 1/5,
    inner_perimeters_first := true,
    number_of_perimeters := 3,
    top_layers := 3,
    bottom_layers := 3,
    print_x := 200,
    print_y := 200,
    print_z := 210,
    brim_width := none,
    layer_shrink_amount := none,
    minimum_retract_distance := 1,
    infill_perimeter_overlap_percentage := 1/4,
    solid_infill_type := .Rectilinear,
    partial_infill_type := .Linear,
    starting_instructions := "",
    ending_instructions := "",
    before_layer_change_instructions := "",
    after_layer_change_instructions := "",
    object_change_instructions := "",
    max_acceleration_x := 1000,
    max_acceleration_y := 1000,
    max_acceleration_z := 1000,
    max_acceleration_e := 5000,
    max_acceleration_extruding := 1250,
    max_acceleration_travel := 1250,
    max_acceleration_retracting := 1250,
    max_jerk_x := 8,
    max_jerk_y := 8,
    max_jerk_z := 2/5,
    max_jerk_e := 3/2,
    minimum_feedrate_print := 0,
    minimum_feedrate_travel := 0,
    maximum_feedrate_x := 200,
    maximum_feedrate_y := 200,
    maximum_feedrate_z := 12,
    maximum_feedrate_e := 120,
    layer_settings := [] }

/-- `settingsAccelEdge` with a travel speed/acceleration pair that grossly
violates the stopping-distance bound (`1000² / (2·1) = 500000 > 200`); the
travel channel is never checked by `check_accelerations`. -/
def settingsTravelUnchecked : Settings :=
  { settingsAccelEdge with
    speed := ⟨40, 40, 40, 40, 40, 40, 40, 1000, 30, 50⟩,
    acceleration := ⟨900, 900, 800, 800, 1000, 1000, 1000, 1, 1000, 1000⟩ }

/-- Counterexample fragments for the tower-join claim: two fragments that
chain into one complete 5-element ring but whose shared seam element also
closes each fragment individually. -/
def cexFragA : TowerRing := ⟨[.Edge 0 1, .Face 1, .Edge 0 1]⟩

def cexFragB : TowerRing := ⟨[.Edge 0 1, .Face 2, .Edge 0 1]⟩

/-- The three-fragment single ring of the `tower.rs` unit tests. -/
def ringGroup1 : List TowerRing :=
  [⟨[.Edge 0 11, .Face 10]⟩, ⟨[.Face 10, .Edge 0 12, .Face 11]⟩,
   ⟨[.Face 11, .Edge 0 11]⟩]

/-- Witness vertex: its fragment load is already one complete ring. -/
def witVertexC6 : TowerVertex :=
  ⟨[⟨[.Edge 0 1, .Face 1, .Edge 0 2, .Face 2, .Edge 0 1]⟩], 0, ⟨0, 0, 0⟩⟩

def witStateC6 : TowerIterState := ⟨[witVertexC6], 0, []⟩

/-! ### Optimizer lemmas -/

theorem stateWalk_length (cur : StateChange) (cmds : List Command) :
    (stateWalk cur cmds).length = cmds.length := by
  induction cmds generalizing cur with
  | nil => rfl
  | cons c rest ih =>
    cases c <;> simp [stateWalk, ih]

theorem state_optomizer_length (cmds : List Command) :
    (state_optomizer cmds).length = cmds.length :=
  stateWalk_length _ _

theorem unary_optimizer_length (cmds : List Command) :
    (unary_optimizer cmds).length ≤ cmds.length :=
  List.length_filter_le _ _

theorem coalesceAux_length (pending : Command) (l : List Command) :
    (coalesceAux pending l).length ≤ l.length + 1 := by
  induction l generalizing pending with
  | nil => simp [coalesceAux]
  | cons c rest ih =>
    simp only [coalesceAux]
    cases coalesceStep pending c with
    | some merged =>
      have := ih merged
      simp only [List.length_cons]
      omega
    | none =>
      have := ih c
      simp only [List.length_cons]
      omega

theorem binary_optimizer_length (cmds : List Command) :
    (binary_optimizer cmds).length ≤ cmds.length := by
  cases cmds with
  | nil => simp [binary_optimizer]
  | cons c rest => exact coalesceAux_length c rest

theorem unary_optimizer_of_length_eq {cmds : List Command}
    (h : (unary_optimizer cmds).length = cmds.length) : unary_optimizer cmds = cmds := by
  unfold unary_optimizer at *
  simp at h
  exact List.filter_eq_self.mpr h

theorem coalesceAux_of_length_eq {pending : Command} {l : List Command}
    (h : (coalesceAux pending l).length = l.length + 1) :
    coalesceAux pending l = pending :: l := by
  induction l generalizing pending with
  | nil => rfl
  | cons c rest ih =>
    simp only [coalesceAux] at h ⊢
    cases hstep : coalesceStep pending c with
    | some merged =>
      rw [hstep] at h
      have := coalesceAux_length merged rest
      simp only [List.length_cons] at h
      omega
    | none =>
      rw [hstep] at h
      simp at h
      rw [ih h]

theorem binary_optimizer_of_length_eq {cmds : List Command}
    (h : (binary_optimizer cmds).length = cmds.length) : binary_optimizer cmds = cmds := by
  cases cmds with
  | nil => rfl
  | cons c rest =>
    simp only [binary_optimizer] at h ⊢
    exact coalesceAux_of_length_eq (by simpa using h)

theorem diffField_idem {α : Type} [DecidableEq α] (cur other : Option α) :
    diffField cur (diffField cur other) = diffField cur other := by
  by_cases h : cur = other
  · simp only [diffField, if_pos h]
    split <;> rfl
  · simp only [diffField, if_neg h]

theorem updField_diff {α : Type} [DecidableEq α] (cur other : Option α) :
    updField cur (diffField cur other) = updField cur other := by
  by_cases h : cur = other
  · simp only [diffField, updField, if_pos h]
    split <;> simp_all
  · simp only [diffField, updField, if_neg h]

theorem stateWalk_idem (cur : StateChange) (cmds : List Command) :
    stateWalk cur (stateWalk cur cmds) = stateWalk cur cmds := by
  induction cmds generalizing cur with
  | nil => rfl
  | cons c rest ih =>
    cases c with
    | SetState st =>
      simp only [stateWalk, StateChange.state_diff]
      simp only [diffField_idem, updField_diff]
      rw [ih]
    | MoveTo p => simp [stateWalk, ih]
    | MoveAndExtrude s e => simp [stateWalk, ih]
    | LayerChange z => simp [stateWalk, ih]
    | Delay m => simp [stateWalk, ih]
    | Arc s e c cw => simp [stateWalk, ih]

theorem state_optomizer_idem (cmds : List Command) :
    state_optomizer (state_optomizer cmds) = state_optomizer cmds :=
  stateWalk_idem _ _

theorem optimizePasses_length (cmds : List Command) :
    (optimizePasses cmds).length ≤ cmds.length := by
  unfold optimizePasses
  calc (binary_optimizer (unary_optimizer (state_optomizer cmds))).length
      ≤ (unary_optimizer (state_optomizer cmds)).length := binary_optimizer_length _
    _ ≤ (state_optomizer cmds).length := unary_optimizer_length _
    _ = cmds.length := state_optomizer_length _

theorem optimizePasses_fix_of_length_eq {cmds : List Command}
    (h : (optimizePasses cmds).length = cmds.length) :
    optimizePasses cmds = state_optomizer cmds ∧
      optimizePasses (optimizePasses cmds) = optimizePasses cmds := by
  have hs := state_optomizer_length cmds
  have hu := unary_optimizer_length (state_optomizer cmds)
  have hb := binary_optimizer_length (unary_optimizer (state_optomizer cmds))
  unfold optimizePasses at h
  have hueq : (unary_optimizer (state_optomizer cmds)).length =
      (state_optomizer cmds).length := by omega
  have hu2 : unary_optimizer (state_optomizer cmds) = state_optomizer cmds :=
    unary_optimizer_of_length_eq hueq
  rw [hu2] at h hb
  have hb2 : binary_optimizer (state_optomizer cmds) = state_optomizer cmds :=
    binary_optimizer_of_length_eq (by omega)
  have key : optimizePasses cmds = state_optomizer cmds := by
    unfold optimizePasses; rw [hu2, hb2]
  refine ⟨key, ?_⟩
  rw [key]
  unfold optimizePasses
  rw [state_optomizer_idem, hu2, hb2]

theorem optimizeLoop_fix : ∀ (fuel : ℕ) (cmds : List Command) (size : ℕ),
    cmds.length ≤ size → size < fuel →
    optimizePasses (optimizeLoop fuel cmds size) = optimizeLoop fuel cmds size := by
  intro fuel
  induction fuel with
  | zero => intro cmds size h1 h2; omega
  | succ n ih =>
    intro cmds size h1 h2
    simp only [optimizeLoop]
    by_cases hlen : (optimizePasses cmds).length = size
    · simp only [hlen, if_true]
      have hcl : (optimizePasses cmds).length = cmds.length := by
        have := optimizePasses_length cmds
        omega
      exact (optimizePasses_fix_of_length_eq hcl).2
    · simp only [hlen, if_false]
      have hlt : (optimizePasses cmds).length < size := by
        have := optimizePasses_length cmds
        omega
      exact ih _ _ le_rfl (by omega)

theorem optimize_commands_fix (cmds : List Command) :
    optimizePasses (optimize_commands cmds) = optimize_commands cmds :=
  optimizeLoop_fix _ _ _ le_rfl (by omega)

/-- Claim C3: `optimize_commands` is idempotent - applying it twice yields
the same command list as applying it once. -/
theorem optimize_commands_idempotent (cmds : List Command) :
    optimize_commands (optimize_commands cmds) = optimize_commands cmds := by
  have hfix := optimize_commands_fix cmds
  generalize hO : optimize_commands cmds = O at hfix ⊢
  show optimizeLoop (O.length + 1) O O.length = O
  simp only [optimizeLoop, hfix]
  simp

theorem state_optomizer_fix_of_optimize (cmds : List Command) :
    state_optomizer (optimize_commands cmds) = optimize_commands cmds := by
  have h1 := optimize_commands_fix cmds
  have hlen2 : (optimizePasses (optimize_commands cmds)).length =
      (optimize_commands cmds).length := by rw [h1]
  have h2 := (optimizePasses_fix_of_length_eq hlen2).1
  rw [h1] at h2
  exact h2.symm

theorem fieldNotRedundant_diff {α : Type} [DecidableEq α] (cur other : Option α) :
    fieldNotRedundant (diffField cur other) cur = true := by
  by_cases h : cur = other
  · simp [diffField, fieldNotRedundant, h]
  · simp [diffField, fieldNotRedundant, h]
    exact Or.inr fun hc => h hc.symm

theorem combine_diff_eq_upd (cur st : StateChange) :
    cur.combine (cur.state_diff st).1 = (cur.state_diff st).2 := by
  have hfield : ∀ (α : Type) (inst : DecidableEq α) (a b : Option α),
      (diffField a b).or a = updField a b := by
    intro α inst a b
    by_cases h : a = b <;> simp [diffField, updField, h]
  simp only [StateChange.combine, StateChange.state_diff]
  simp [hfield]

theorem checkNoRedundant_stateWalk (cur : StateChange) (cmds : List Command) :
    checkNoRedundantSetState cur (stateWalk cur cmds) = true := by
  induction cmds generalizing cur with
  | nil => rfl
  | cons c rest ih =>
    cases c with
    | SetState st =>
      simp only [stateWalk, checkNoRedundantSetState]
      rw [combine_diff_eq_upd]
      simp only [StateChange.state_diff, fieldNotRedundant_diff, ih]
      rfl
    | MoveTo p => simpa [stateWalk, checkNoRedundantSetState] using ih cur
    | MoveAndExtrude s e => simpa [stateWalk, checkNoRedundantSetState] using ih cur
    | LayerChange z => simpa [stateWalk, checkNoRedundantSetState] using ih cur
    | Delay m => simpa [stateWalk, checkNoRedundantSetState] using ih cur
    | Arc s e c cw => simpa [stateWalk, checkNoRedundantSetState] using ih cur

/-- Claim C4: after `optimize_commands`, walking the output from the front
while accumulating applied `SetState` deltas from the default machine
state, no `SetState` sets a field to the value the running state already
holds immediately before it. -/
theorem optimize_commands_no_redundant_set_state (cmds : List Command) :
    checkNoRedundantSetState StateChange.default (optimize_commands cmds) = true := by
  have h := state_optomizer_fix_of_optimize cmds
  unfold state_optomizer at h
  rw [← h]
  exact checkNoRedundant_stateWalk _ _

theorem optimizeLoopCount_le : ∀ (fuel : ℕ) (cmds : List Command) (size : ℕ),
    cmds.length ≤ size → size < fuel → optimizeLoopCount fuel cmds size ≤ size + 1 := by
  intro fuel
  induction fuel with
  | zero => intro cmds size h1 h2; omega
  | succ n ih =>
    intro cmds size h1 h2
    simp only [optimizeLoopCount]
    by_cases hlen : (optimizePasses cmds).length = size
    · simp [hlen]
    · simp only [hlen, if_false]
      have hp := optimizePasses_length cmds
      have : optimizeLoopCount n (optimizePasses cmds) (optimizePasses cmds).length ≤
          (optimizePasses cmds).length + 1 := ih _ _ le_rfl (by omega)
      omega

/-- Claim C9: `optimize_commands` terminates on every finite input - none
of the three passes increases the list length, the result is a fixpoint of
the passes, and the number of loop iterations is bounded by the initial
list length plus one (so the number of repeats beyond the first is bounded
by the initial length). -/
theorem optimize_commands_terminates (cmds : List Command) :
    (state_optomizer cmds).length = cmds.length ∧
    (unary_optimizer cmds).length ≤ cmds.length ∧
    (binary_optimizer cmds).length ≤ cmds.length ∧
    optimizePasses (optimize_commands cmds) = optimize_commands cmds ∧
    optimizeIterations cmds ≤ cmds.length + 1 ∧
    optimizeIterations cmds - 1 ≤ cmds.length := by
  refine ⟨state_optomizer_length cmds, unary_optimizer_length cmds,
    binary_optimizer_length cmds, optimize_commands_fix cmds, ?_, ?_⟩
  · exact optimizeLoopCount_le _ _ _ le_rfl (by omega)
  · have := optimizeLoopCount_le (cmds.length + 1) cmds cmds.length le_rfl (by omega)
    unfold optimizeIterations
    omega

/-- Claim C8: on a layer start followed by
`SetState{speed=50}, SetState{speed=50}, SetState{speed=60}` under the
default initial machine state (whose speed is neither 50 nor 60),
`optimize_commands` leaves a single `SetState` with `movement_speed = 60`
at that position. -/
theorem optimizer_coalesces_speed_sequence :
    StateChange.default.movement_speed ≠ some 50 ∧
    StateChange.default.movement_speed ≠ some 60 ∧
    optimize_commands
      [Command.LayerChange 0,
       Command.SetState ⟨none, none, some 50, none⟩,
       Command.SetState ⟨none, none, some 50, none⟩,
       Command.SetState ⟨none, none, some 60, none⟩] =
      [Command.LayerChange 0, Command.SetState ⟨none, none, some 60, none⟩] := by
  refine ⟨by simp [StateChange.default], by simp [StateChange.default], by decide⟩

/-! ### Settings lemmas -/

theorem foldl_combine_field {α : Type} (g : PartialLayerSettings → Option α)
    (hg : ∀ a b, g (a.combine b) = (g a).or (g b)) :
    ∀ (l : List PartialLayerSettings) (acc : PartialLayerSettings),
      g (l.foldl (fun a b => a.combine b) acc) = (g acc).or (l.filterMap g).head? := by
  intro l
  induction l with
  | nil => intro acc; simp
  | cons b t ih =>
    intro acc
    have hhead : (List.filterMap g (b :: t)).head? = (g b).or (List.filterMap g t).head? := by
      cases hb : g b <;> simp [List.filterMap_cons, hb]
    rw [List.foldl_cons, ih, hg, hhead]
    cases g acc <;> cases g b <;> simp

theorem changes_field {α : Type} (g : PartialLayerSettings → Option α)
    (hg : ∀ a b, g (a.combine b) = (g a).or (g b))
    (hdef : g PartialLayerSettings.default = none)
    (l : List (LayerRange × PartialLayerSettings)) :
    g (l.foldl (fun a b => a.combine b.2) PartialLayerSettings.default) =
      ((l.map Prod.snd).filterMap g).head? := by
  have : l.foldl (fun a b => a.combine b.2) PartialLayerSettings.default =
      (l.map Prod.snd).foldl (fun a b => a.combine b) PartialLayerSettings.default := by
    rw [List.foldl_map]
  rw [this, foldl_combine_field g hg, hdef]
  simp

/-- Claim C10: each per-layer field of `get_layer_settings` resolves to the
value of the EARLIEST matching `layer_settings` entry that sets that field
(the head of the filter-mapped matching list); entries later in the list
contribute a field only when all earlier matching entries leave it unset,
and fields no matching entry sets fall back to the global settings. -/
theorem get_layer_settings_earliest_match_wins (s : Settings) (layer : ℕ) (height : ℚ) :
    (s.get_layer_settings layer height).layer_height =
        (((matchingPartials s layer height).filterMap (fun p => p.layer_height)).head?).getD s.layer_height ∧
    (s.get_layer_settings layer height).layer_shrink_amount =
        (((matchingPartials s layer height).filterMap
          (fun p => p.layer_shrink_amount)).head?).or s.layer_shrink_amount ∧
    (s.get_layer_settings layer height).speed =
        (((matchingPartials s layer height).filterMap (fun p => p.speed)).head?).getD s.speed ∧
    (s.get_layer_settings layer height).acceleration =
        (((matchingPartials s layer height).filterMap (fun p => p.acceleration)).head?).getD s.acceleration ∧
    (s.get_layer_settings layer height).extrusion_width =
        (((matchingPartials s layer height).filterMap (fun p => p.extrusion_width)).head?).getD s.extrusion_width ∧
    (s.get_layer_settings layer height).solid_infill_type =
        (((matchingPartials s layer height).filterMap (fun p => p.solid_infill_type)).head?).getD s.solid_infill_type ∧
    (s.get_layer_settings layer height).partial_infill_type =
        (((matchingPartials s layer height).filterMap (fun p => p.partial_infill_type)).head?).getD s.partial_infill_type ∧
    (s.get_layer_settings layer height).infill_percentage =
        (((matchingPartials s layer height).filterMap (fun p => p.infill_percentage)).head?).getD s.infill_percentage ∧
    (s.get_layer_settings layer height).infill_perimeter_overlap_percentage =
        (((matchingPartials s layer height).filterMap
          (fun p => p.infill_perimeter_overlap_percentage)).head?).getD s.infill_perimeter_overlap_percentage ∧
    (s.get_layer_settings layer height).inner_perimeters_first =
        (((matchingPartials s layer height).filterMap (fun p => p.inner_perimeters_first)).head?).getD s.inner_perimeters_first ∧
    (s.get_layer_settings layer height).bed_temp =
        (((matchingPartials s layer height).filterMap (fun p => p.bed_temp)).head?).getD s.filament.bed_temp ∧
    (s.get_layer_settings layer height).extruder_temp =
        (((matchingPartials s layer height).filterMap (fun p => p.extruder_temp)).head?).getD s.filament.extruder_temp ∧
    (s.get_layer_settings layer height).retraction_wipe =
        (((matchingPartials s layer height).filterMap
          (fun p => p.retraction_wipe)).head?).or s.retraction_wipe ∧
    (s.get_layer_settings layer height).retraction_length =
        (((matchingPartials s layer height).filterMap (fun p => p.retraction_length)).head?).getD s.retract_length := by
  unfold Settings.get_layer_settings matchingPartials
  refine ⟨?_, ?_, ?_, ?_, ?_, ?_, ?_, ?_, ?_, ?_, ?_, ?_, ?_, ?_⟩ <;> simp only []
  · exact congrArg (fun o => o.getD s.layer_height)
      (changes_field (fun p => p.layer_height) (fun a b => rfl) rfl _)
  · exact congrArg (fun o => o.or s.layer_shrink_amount)
      (changes_field (fun p => p.layer_shrink_amount) (fun a b => rfl) rfl _)
  · exact congrArg (fun o => o.getD s.speed)
      (changes_field (fun p => p.speed) (fun a b => rfl) rfl _)
  · exact congrArg (fun o => o.getD s.acceleration)
      (changes_field (fun p => p.acceleration) (fun a b => rfl) rfl _)
  · exact congrArg (fun o => o.getD s.extrusion_width)
      (changes_field (fun p => p.extrusion_width) (fun a b => rfl) rfl _)
  · exact congrArg (fun o => o.getD s.solid_infill_type)
      (changes_field (fun p => p.solid_infill_type) (fun a b => rfl) rfl _)
  · exact congrArg (fun o => o.getD s.partial_infill_type)
      (changes_field (fun p => p.partial_infill_type) (fun a b => rfl) rfl _)
  · exact congrArg (fun o => o.getD s.infill_percentage)
      (changes_field (fun p => p.infill_percentage) (fun a b => rfl) rfl _)
  · exact congrArg (fun o => o.getD s.infill_perimeter_overlap_percentage)
      (changes_field (fun p => p.infill_perimeter_overlap_percentage) (fun a b => rfl) rfl _)
  · exact congrArg (fun o => o.getD s.inner_perimeters_first)
      (changes_field (fun p => p.inner_perimeters_first) (fun a b => rfl) rfl _)
  · exact congrArg (fun o => o.getD s.filament.bed_temp)
      (changes_field (fun p => p.bed_temp) (fun a b => rfl) rfl _)
  · exact congrArg (fun o => o.getD s.filament.extruder_temp)
      (changes_field (fun p => p.extruder_temp) (fun a b => rfl) rfl _)
  · exact congrArg (fun o => o.or s.retraction_wipe)
      (changes_field (fun p => p.retraction_wipe) (fun a b => rfl) rfl _)
  · exact congrArg (fun o => o.getD s.retract_length)
      (changes_field (fun p => p.retraction_length) (fun a b => rfl) rfl _)

/-- Claim C1, counterexample part: at `speed.infill = 200`,
`acceleration.infill = 100`, `print_x = print_y = 200` the stopping distance
`200²/(2·100) = 200` equals `min(print_x, print_y)` exactly, and
`validate_settings` returns `NoIssue` - the source tests with a strict `>`,
so no `AccelerationTooLow` warning is emitted at equality; moreover the
travel channel is never checked at all. -/
theorem settingsAccelEdge_no_warning :
    settingsAccelEdge.speed.infill = 200 ∧
    settingsAccelEdge.acceleration.infill = 100 ∧
    settingsAccelEdge.print_x = 200 ∧ settingsAccelEdge.print_y = 200 ∧
    settingsAccelEdge.speed.infill * settingsAccelEdge.speed.infill /
      (2 * settingsAccelEdge.acceleration.infill) =
        min settingsAccelEdge.print_x settingsAccelEdge.print_y ∧
    settingsAccelEdge.validate_settings = .NoIssue ∧
    settingsTravelUnchecked.speed.travel * settingsTravelUnchecked.speed.travel /
      (2 * settingsTravelUnchecked.acceleration.travel) >
        min settingsTravelUnchecked.print_x settingsTravelUnchecked.print_y ∧
    settingsTravelUnchecked.validate_settings = .NoIssue := by
  refine ⟨rfl, rfl, rfl, rfl, by norm_num [settingsAccelEdge], ?_, ?_, ?_⟩
  · norm_num [Settings.validate_settings, settingsAccelEdge, checkLeZero, checkLtZero,
      checkWindow, check_extrusions, checkExtrusionChannel, check_accelerations,
      checkAccelerationChannel, SettingsValidationResult.andThen, validateLayerSettingsList]
  · norm_num [settingsTravelUnchecked, settingsAccelEdge]
  · norm_num [Settings.validate_settings, settingsTravelUnchecked, settingsAccelEdge,
      checkLeZero, checkLtZero,
      checkWindow, check_extrusions, checkExtrusionChannel, check_accelerations,
      checkAccelerationChannel, SettingsValidationResult.andThen, validateLayerSettingsList]

/-- Claim C1 (amended): for positive accelerations, `check_accelerations`
emits an `AccelerationTooLow` warning exactly when, on one of the nine
checked movement channels (travel is not checked), the stopping distance
`speed²/(2·acceleration)` STRICTLY exceeds `min(print_x, print_y)`;
equality emits no warning. -/
theorem check_accelerations_warning_iff (acc sp : MovementParameter) (m : ℚ)
    (_hpos : 0 < acc.infill ∧ 0 < acc.solid_top_infill ∧ 0 < acc.solid_infill ∧
      0 < acc.bridge ∧ 0 < acc.support ∧ 0 < acc.interior_surface_perimeter ∧
      0 < acc.interior_inner_perimeter ∧ 0 < acc.exterior_inner_perimeter ∧
      0 < acc.exterior_surface_perimeter) :
    (∃ w, check_accelerations acc sp m = .Warning w) ↔
      (sp.infill * sp.infill / (2 * acc.infill) > m ∨
       sp.solid_top_infill * sp.solid_top_infill / (2 * acc.solid_top_infill) > m ∨
       sp.solid_infill * sp.solid_infill / (2 * acc.solid_infill) > m ∨
       sp.bridge * sp.bridge / (2 * acc.bridge) > m ∨
       sp.support * sp.support / (2 * acc.support) > m ∨
       sp.interior_surface_perimeter * sp.interior_surface_perimeter /
         (2 * acc.interior_surface_perimeter) > m ∨
       sp.interior_inner_perimeter * sp.interior_inner_perimeter /
         (2 * acc.interior_inner_perimeter) > m ∨
       sp.exterior_inner_perimeter * sp.exterior_inner_perimeter /
         (2 * acc.exterior_inner_perimeter) > m ∨
       sp.exterior_surface_perimeter * sp.exterior_surface_perimeter /
         (2 * acc.exterior_surface_perimeter) > m) := by
  clear _hpos
  simp only [check_accelerations, checkAccelerationChannel]
  by_cases h1 : sp.infill * sp.infill / (2 * acc.infill) > m
  · simp [h1, SettingsValidationResult.andThen]
  · simp only [h1, if_neg, if_false, SettingsValidationResult.andThen]
    by_cases h2 : sp.solid_top_infill * sp.solid_top_infill / (2 * acc.solid_top_infill) > m
    · simp [h2, SettingsValidationResult.andThen]
    · simp only [h2, if_neg, if_false, SettingsValidationResult.andThen]
      by_cases h3 : sp.solid_infill * sp.solid_infill / (2 * acc.solid_infill) > m
      · simp [h3, SettingsValidationResult.andThen]
      · simp only [h3, if_neg, if_false, SettingsValidationResult.andThen]
        by_cases h4 : sp.bridge * sp.bridge / (2 * acc.bridge) > m
        · simp [h4, SettingsValidationResult.andThen]
        · simp only [h4, if_neg, if_false, SettingsValidationResult.andThen]
          by_cases h5 : sp.support * sp.support / (2 * acc.support) > m
          · simp [h5, SettingsValidationResult.andThen]
          · simp only [h5, if_neg, if_false, SettingsValidationResult.andThen]
            by_cases h6 : sp.interior_surface_perimeter * sp.interior_surface_perimeter /
                (2 * acc.interior_surface_perimeter) > m
            · simp [h6, SettingsValidationResult.andThen]
            · simp only [h6, if_neg, if_false, SettingsValidationResult.andThen]
              by_cases h7 : sp.interior_inner_perimeter * sp.interior_inner_perimeter /
                  (2 * acc.interior_inner_perimeter) > m
              · simp [h7, SettingsValidationResult.andThen]
              · simp only [h7, if_neg, if_false, SettingsValidationResult.andThen]
                by_cases h8 : sp.exterior_inner_perimeter * sp.exterior_inner_perimeter /
                    (2 * acc.exterior_inner_perimeter) > m
                · simp [h8, SettingsValidationResult.andThen]
                · simp only [h8, if_neg, if_false, SettingsValidationResult.andThen]
                  by_cases h9 : sp.exterior_surface_perimeter * sp.exterior_surface_perimeter /
                      (2 * acc.exterior_surface_perimeter) > m
                  · simp [h9, SettingsValidationResult.andThen]
                  · simp [h1, h2, h3, h4, h5, h6, h7, h8, h9,
                      SettingsValidationResult.andThen]

theorem check_accelerations_warning_iff_witness :
    (0 < (100:ℚ) ∧ 0 < (1000:ℚ) ∧ 0 < (1000:ℚ) ∧ 0 < (1000:ℚ) ∧ 0 < (1000:ℚ) ∧
      0 < (900:ℚ) ∧ 0 < (900:ℚ) ∧ 0 < (800:ℚ) ∧ 0 < (800:ℚ)) ∧
    ((∃ w, check_accelerations ⟨900, 900, 800, 800, 1000, 1000, 100, 1000, 1000, 1000⟩
        ⟨40, 40, 40, 40, 40, 40, 201, 180, 30, 50⟩ 200 = .Warning w) ↔
      ((201:ℚ) * 201 / (2 * 100) > 200 ∨
       (40:ℚ) * 40 / (2 * 1000) > 200 ∨
       (40:ℚ) * 40 / (2 * 1000) > 200 ∨
       (30:ℚ) * 30 / (2 * 1000) > 200 ∨
       (50:ℚ) * 50 / (2 * 1000) > 200 ∨
       (40:ℚ) * 40 / (2 * 900) > 200 ∨
       (40:ℚ) * 40 / (2 * 900) > 200 ∨
       (40:ℚ) * 40 / (2 * 800) > 200 ∨
       (40:ℚ) * 40 / (2 * 800) > 200)) := by
  constructor
  · norm_num
  · exact check_accelerations_warning_iff
      ⟨900, 900, 800, 800, 1000, 1000, 100, 1000, 1000, 1000⟩
      ⟨40, 40, 40, 40, 40, 40, 201, 180, 30, 50⟩ 200
      (by norm_num)

/-- Claim C2 (code bug): for every assignment of stage outcomes, the
pipeline emits the `SliceFinished` callback zero times - the trait method
`handle_slice_finished` has no call site anywhere in the orchestration -
while `handle_calculated_values` is emitted exactly once on every `Ok`
run. The spec says `handle_slice_finished` is called once at the end of a
successful run. -/
theorem custom_slicer_pipeline_never_calls_slice_finished (st : PipelineStages) :
    ((custom_slicer_pipeline st).2.count PipelineEvent.SliceFinished = 0) ∧
    ((custom_slicer_pipeline st).1 = .ok () →
      (custom_slicer_pipeline st).2.count PipelineEvent.CalculatedValues = 1) := by
  unfold custom_slicer_pipeline handle_setting_validation
  rcases st with ⟨v, mb, tw, sl, op, mvb, cv⟩
  cases v <;> cases mb <;> cases tw <;> cases sl <;> cases op <;> cases mvb <;> cases cv <;>
    simp [List.count_append, List.count_cons]

theorem custom_slicer_pipeline_never_calls_slice_finished_witness :
    ((custom_slicer_pipeline ⟨.NoIssue, .ok (), .ok (), .ok (), .ok (), .ok (),
        .ok ()⟩).2.count PipelineEvent.SliceFinished = 0) ∧
    ((custom_slicer_pipeline ⟨.NoIssue, .ok (), .ok (), .ok (), .ok (), .ok (),
        .ok ()⟩).1 = .ok () ∧
      (custom_slicer_pipeline ⟨.NoIssue, .ok (), .ok (), .ok (), .ok (), .ok (),
        .ok ()⟩).2.count PipelineEvent.CalculatedValues = 1) :=
  ⟨(custom_slicer_pipeline_never_calls_slice_finished _).1,
    rfl,
    (custom_slicer_pipeline_never_calls_slice_finished _).2 rfl⟩

theorem insertSorted_perm {α : Type} (le : α → α → Bool) (a : α) (l : List α) :
    (insertSorted le a l).Perm (a :: l) := by
  induction l with
  | nil => simp [insertSorted]
  | cons b t ih =>
    simp only [insertSorted]
    by_cases h : le b a
    · simp only [h, if_true]
      exact ((ih.cons b).trans (List.Perm.swap a b t))
    · simp [h]

theorem insertSorted_sorted {α : Type} (le : α → α → Bool)
    (htrans : ∀ a b c, le a b = true → le b c = true → le a c = true)
    (htot : ∀ a b, (le a b || le b a) = true) (a : α) (l : List α)
    (hl : l.Pairwise (fun x y => le x y = true)) :
    (insertSorted le a l).Pairwise (fun x y => le x y = true) := by
  induction l with
  | nil => simp [insertSorted]
  | cons b t ih =>
    simp only [insertSorted]
    rcases List.pairwise_cons.mp hl with ⟨hb, ht⟩
    by_cases h : le b a
    · simp only [h, if_true]
      refine List.pairwise_cons.mpr ⟨?_, ih ht⟩
      intro x hx
      have hx2 := (insertSorted_perm le a t).mem_iff.mp hx
      rcases List.mem_cons.mp hx2 with hxa | hxt
      · subst hxa; exact h
      · exact hb x hxt
    · have hab : le a b = true := by
        have := htot a b
        cases hle : le a b
        · rw [hle] at this
          simp at this
          exact absurd this h
        · rfl
      simp only [h, if_false]
      refine List.pairwise_cons.mpr ⟨?_, hl⟩
      intro x hx
      rcases List.mem_cons.mp hx with hxb | hxt
      · subst hxb; exact hab
      · exact htrans a b x hab (hb x hxt)

theorem stableSort_sorted_aux {α : Type} (le : α → α → Bool)
    (htrans : ∀ a b c, le a b = true → le b c = true → le a c = true)
    (htot : ∀ a b, (le a b || le b a) = true) :
    ∀ (l acc : List α), acc.Pairwise (fun x y => le x y = true) →
      (l.foldl (fun acc a => insertSorted le a acc) acc).Pairwise
        (fun x y => le x y = true) := by
  intro l
  induction l with
  | nil => intro acc hacc; simpa using hacc
  | cons a t ih =>
    intro acc hacc
    simp only [List.foldl_cons]
    exact ih _ (insertSorted_sorted le htrans htot a acc hacc)

theorem stableSort_sorted {α : Type} (le : α → α → Bool)
    (htrans : ∀ a b c, le a b = true → le b c = true → le a c = true)
    (htot : ∀ a b, (le a b || le b a) = true) (l : List α) :
    (stableSort le l).Pairwise (fun x y => le x y = true) :=
  stableSort_sorted_aux le htrans htot l [] (by simp)

theorem stableSort_perm {α : Type} (le : α → α → Bool) (l : List α) :
    (stableSort le l).Perm l := by
  have aux : ∀ (l acc : List α),
      (l.foldl (fun acc a => insertSorted le a acc) acc).Perm (acc ++ l) := by
    intro l
    induction l with
    | nil => intro acc; simp
    | cons a t ih =>
      intro acc
      simp only [List.foldl_cons]
      refine (ih _).trans ?_
      have h1 : (insertSorted le a acc).Perm (a :: acc) := insertSorted_perm le a acc
      refine (h1.append_right t).trans ?_
      have : (a :: acc ++ t).Perm (acc ++ a :: t) := by
        simpa using List.perm_middle.symm
      exact this
  simpa using aux l []

theorem sliceLe_trans : ∀ a b c : Slice, sliceLe a b = true → sliceLe b c = true →
    sliceLe a c = true := by
  intro a b c hab hbc
  simp only [sliceLe, decide_eq_true_eq] at *
  exact le_trans hab hbc

theorem sliceLe_total : ∀ a b : Slice, (sliceLe a b || sliceLe b a) = true := by
  intro a b
  simp only [sliceLe, Bool.or_eq_true, decide_eq_true_eq]
  exact le_total _ _

theorem mapM_ok_mem {α β : Type} (f : α → Except SlicerErrors β) :
    ∀ (l : List α) (out : List β), l.mapM f = .ok out → ∀ b ∈ out, ∃ a ∈ l, f a = .ok b := by
  intro l
  induction l with
  | nil =>
    intro out h b hb
    simp only [List.mapM_nil, pure, Except.pure, Except.ok.injEq] at h
    subst h
    simp at hb
  | cons a t ih =>
    intro out h b hb
    simp only [List.mapM_cons, bind, Except.bind, pure, Except.pure] at h
    cases hfa : f a with
    | error e => rw [hfa] at h; cases h
    | ok v =>
      rw [hfa] at h
      cases hrest : t.mapM f with
      | error e => rw [hrest] at h; cases h
      | ok vs =>
        rw [hrest] at h
        cases h
        rcases List.mem_cons.mp hb with h1 | h2
        · exact ⟨a, List.mem_cons_self a t, by rw [hfa, h1]⟩
        · rcases ih vs hrest b h2 with ⟨x, hx, hfx⟩
          exact ⟨x, List.mem_cons_of_mem a hx, hfx⟩

/-- Claim C7: whenever the slicing driver returns `Ok`, the slices inside
every returned `Object` are pairwise non-decreasing in `top_height`,
whatever order the parallel bridge delivered them in. -/
theorem slice_layers_sorted_by_top_height
    (delivered : List (Except SlicerErrors (List Slice))) (objects : List Object)
    (h : Slicing.slice delivered = .ok objects) :
    ∀ obj ∈ objects, obj.layers.Pairwise (fun a b => a.top_height ≤ b.top_height) := by
  intro obj hobj
  rcases mapM_ok_mem _ delivered objects h obj hobj with ⟨r, _hr, hfr⟩
  have key : ∃ ls, obj = Object.mk (stableSort sliceLe ls) := by
    cases r with
    | error e => simp [Except.map] at hfr
    | ok ls =>
      refine ⟨ls, ?_⟩
      simp only [Except.map, Except.ok.injEq] at hfr
      exact hfr.symm
  rcases key with ⟨ls, rfl⟩
  have hs := stableSort_sorted sliceLe sliceLe_trans sliceLe_total ls
  refine List.Pairwise.imp ?_ hs
  intro a b hab
  simpa [sliceLe] using hab

theorem slice_layers_sorted_by_top_height_witness :
    Slicing.slice [Except.ok [⟨0, 2, 0⟩, ⟨0, 1, 1⟩]] =
        .ok [Object.mk [⟨0, 1, 1⟩, ⟨0, 2, 0⟩]] ∧
    ∀ obj ∈ [Object.mk [(⟨0, 1, 1⟩ : Slice), ⟨0, 2, 0⟩]],
      obj.layers.Pairwise (fun a b => a.top_height ≤ b.top_height) := by
  constructor
  · rfl
  · exact slice_layers_sorted_by_top_height
      [Except.ok [⟨0, 2, 0⟩, ⟨0, 1, 1⟩]] _ (by rfl)

theorem Ordering_then_eq_lt {o x : Ordering} :
    o.then x = .lt ↔ o = .lt ∨ (o = .eq ∧ x = .lt) := by
  cases o <;> simp [Ordering.then]

theorem Ordering_then_eq_eq {o x : Ordering} :
    o.then x = .eq ↔ o = .eq ∧ x = .eq := by
  cases o <;> simp [Ordering.then]

theorem Ordering_then_eq_gt {o x : Ordering} :
    o.then x = .gt ↔ o = .gt ∨ (o = .eq ∧ x = .gt) := by
  cases o <;> simp [Ordering.then]

theorem cmpElement_eq_iff {a b : TowerRingElement} : cmpElement a b = .eq ↔ a = b := by
  cases a <;> cases b <;>
    simp [cmpElement, Ordering_then_eq_eq, Nat.compare_eq_eq]

theorem cmpElement_lt_iff_gt {a b : TowerRingElement} :
    cmpElement a b = .lt ↔ cmpElement b a = .gt := by
  cases a <;> cases b <;>
    simp [cmpElement, Ordering_then_eq_lt, Ordering_then_eq_gt,
      Nat.compare_eq_lt, Nat.compare_eq_gt, Nat.compare_eq_eq]
  all_goals omega

theorem cmpElement_lt_trans {a b c : TowerRingElement} :
    cmpElement a b = .lt → cmpElement b c = .lt → cmpElement a c = .lt := by
  cases a <;> cases b <;> cases c <;>
    simp [cmpElement, Ordering_then_eq_lt, Nat.compare_eq_lt, Nat.compare_eq_eq]
  all_goals omega

theorem cmpOptElement_eq_iff {a b : Option TowerRingElement} :
    cmpOptElement a b = .eq ↔ a = b := by
  cases a <;> cases b <;> simp [cmpOptElement, cmpElement_eq_iff]

theorem cmpOptElement_lt_iff_gt {a b : Option TowerRingElement} :
    cmpOptElement a b = .lt ↔ cmpOptElement b a = .gt := by
  cases a <;> cases b <;> simp [cmpOptElement, cmpElement_lt_iff_gt]

theorem cmpOptElement_lt_trans {a b c : Option TowerRingElement}
    (h1 : cmpOptElement a b = .lt) (h2 : cmpOptElement b c = .lt) :
    cmpOptElement a c = .lt := by
  cases a <;> cases b <;> cases c <;> simp_all [cmpOptElement]
  exact cmpElement_lt_trans h1 h2

theorem cmpOptElement_refl (a : Option TowerRingElement) : cmpOptElement a a = .eq :=
  cmpOptElement_eq_iff.mpr rfl

/-- `¬ gt` as the disjunction of `lt` and equality. -/
theorem cmpOptElement_ne_gt_iff {a b : Option TowerRingElement} :
    ¬cmpOptElement a b = .gt ↔ cmpOptElement a b = .lt ∨ a = b := by
  constructor
  · intro h
    cases hc : cmpOptElement a b with
    | lt => exact Or.inl rfl
    | eq => exact Or.inr (cmpOptElement_eq_iff.mp hc)
    | gt => exact absurd hc h
  · rintro (h | rfl)
    · simp [h]
    · simp [cmpOptElement_refl]

theorem ringLe_trans : ∀ a b c : TowerRing, ringLe a b = true → ringLe b c = true →
    ringLe a c = true := by
  intro a b c hab hbc
  simp only [ringLe, cmpRing, ne_eq, decide_eq_true_eq] at hab hbc ⊢
  rw [cmpOptElement_ne_gt_iff] at *
  rcases hab with h1 | h1 <;> rcases hbc with h2 | h2
  · exact Or.inl (cmpOptElement_lt_trans h1 h2)
  · exact Or.inl (h2 ▸ h1)
  · exact Or.inl (h1 ▸ h2)
  · exact Or.inr (h1.trans h2)

theorem ringLe_total : ∀ a b : TowerRing, (ringLe a b || ringLe b a) = true := by
  intro a b
  simp only [ringLe, cmpRing, ne_eq, Bool.or_eq_true, decide_eq_true_eq]
  by_cases h : cmpOptElement a.elements.head? b.elements.head? = .gt
  · exact Or.inr (fun h2 => by
      rw [← cmpOptElement_lt_iff_gt] at h
      rw [h] at h2
      cases h2)
  · exact Or.inl h

theorem binarySearchAux_sound (frags : List TowerRing) (target : Option TowerRingElement) :
    ∀ (fuel left right i : ℕ),
      binarySearchAux frags target fuel left right = some i →
      left ≤ i ∧ i < right ∧ (frags.getD i ⟨[]⟩).elements.head? = target := by
  intro fuel
  induction fuel with
  | zero => intro left right i h; cases h
  | succ n ih =>
    intro left right i h
    simp only [binarySearchAux] at h
    by_cases hlr : left < right
    · rw [if_pos hlr] at h
      rcases hcmp : cmpOptElement
          ((frags.getD (left + (right - left) / 2) ⟨[]⟩).elements.head?) target with _ | _ | _ <;>
        rw [hcmp] at h
      · rcases ih _ _ _ h with ⟨h1, h2, h3⟩
        exact ⟨by omega, h2, h3⟩
      · cases h
        exact ⟨by omega, by omega, cmpOptElement_eq_iff.mp hcmp⟩
      · rcases ih _ _ _ h with ⟨h1, h2, h3⟩
        exact ⟨h1, by omega, h3⟩
    · rw [if_neg hlr] at h
      cases h

theorem binarySearchAux_complete (frags : List TowerRing) (target : Option TowerRingElement)
    (hs : ∀ p q, p < q → q < frags.length →
      ¬cmpOptElement ((frags.getD p ⟨[]⟩).elements.head?)
        ((frags.getD q ⟨[]⟩).elements.head?) = .gt) :
    ∀ (fuel left right j : ℕ), left ≤ j → j < right → right ≤ frags.length →
      right - left ≤ fuel →
      (frags.getD j ⟨[]⟩).elements.head? = target →
      ∃ i, binarySearchAux frags target fuel left right = some i := by
  intro fuel
  induction fuel with
  | zero => intro left right j h1 h2 h3 h4 h5; omega
  | succ n ih =>
    intro left right j h1 h2 h3 h4 h5
    have hlr : left < right := by omega
    simp only [binarySearchAux, if_pos hlr]
    rcases hcmp : cmpOptElement
        ((frags.getD (left + (right - left) / 2) ⟨[]⟩).elements.head?) target with _ | _ | _
    · -- probe key below target: the match is strictly right of mid
      have hj : left + (right - left) / 2 < j := by
        by_contra hle
        push_neg at hle
        rcases Nat.lt_or_ge j (left + (right - left) / 2) with hlt | hge
        · have hthis := hs j (left + (right - left) / 2) hlt (by omega)
          rw [h5] at hthis
          rw [cmpOptElement_lt_iff_gt] at hcmp
          exact hthis hcmp
        · have heq : j = left + (right - left) / 2 := by omega
          rw [← heq, h5, cmpOptElement_refl] at hcmp
          cases hcmp
      exact ih (left + (right - left) / 2 + 1) right j (by omega) h2 h3 (by omega) h5
    · exact ⟨_, rfl⟩
    · -- probe key above target: the match is strictly left of mid
      have hj : j < left + (right - left) / 2 := by
        by_contra hle
        push_neg at hle
        rcases Nat.lt_or_ge (left + (right - left) / 2) j with hlt | hge
        · have hthis := hs (left + (right - left) / 2) j hlt (by omega)
          rw [h5] at hthis
          exact hthis hcmp
        · have heq : left + (right - left) / 2 = j := by omega
          rw [heq, h5, cmpOptElement_refl] at hcmp
          cases hcmp
      exact ih left (left + (right - left) / 2) j h1 hj (by omega) (by omega) h5

theorem binarySearchByFirst_found (frags : List TowerRing) (target : Option TowerRingElement)
    (hs : ∀ p q, p < q → q < frags.length →
      ¬cmpOptElement ((frags.getD p ⟨[]⟩).elements.head?)
        ((frags.getD q ⟨[]⟩).elements.head?) = .gt)
    (j : ℕ) (hj : j < frags.length)
    (hkey : (frags.getD j ⟨[]⟩).elements.head? = target) :
    ∃ i, binarySearchByFirst frags target = some i ∧ i < frags.length ∧
      (frags.getD i ⟨[]⟩).elements.head? = target := by
  rcases binarySearchAux_complete frags target hs frags.length 0 frags.length j
      (by omega) hj le_rfl le_rfl hkey with ⟨i, hi⟩
  rcases binarySearchAux_sound frags target _ _ _ _ hi with ⟨_, h2, h3⟩
  exact ⟨i, hi, h2, h3⟩

/-! ### Chain structure lemmas -/

theorem chainElements_cons (f : TowerRing) (rest : List TowerRing) :
    chainElements (f :: rest) = f.elements ++ rest.flatMap (fun r => r.elements.drop 1) :=
  rfl

theorem mem_chainElements {g : List TowerRing} {f : TowerRing} (hf : f ∈ g)
    (hlen : ∀ f ∈ g, f.elements ≠ []) (hch : List.Chain' seam g) :
    ∀ x ∈ f.elements, x ∈ chainElements g := by
  induction g with
  | nil => cases hf
  | cons r t ih =>
    intro x hx
    rw [chainElements_cons]
    rcases List.mem_cons.mp hf with rfl | hft
    · exact List.mem_append_left _ hx
    · have ht : t ≠ [] := by rintro rfl; cases hft
      have hxt : x ∈ chainElements t :=
        ih hft (fun f2 hf2 => hlen f2 (List.mem_cons_of_mem _ hf2)) (List.Chain'.tail hch) x hx
      cases t with
      | nil => exact absurd rfl ht
      | cons t0 ttail =>
        rw [chainElements_cons] at hxt
        apply List.mem_append.mpr
        rcases List.mem_append.mp hxt with h0 | hflat
        · -- x is in the first fragment of the tail group
          cases he : t0.elements with
          | nil => exact absurd he (hlen t0 (by simp))
          | cons e es =>
            rw [he] at h0
            rcases List.mem_cons.mp h0 with rfl | hes
            · -- x is the seam element: it also closes the fragment r
              have hseam : seam r t0 := (List.chain'_cons.mp hch).1
              rw [seam, he] at hseam
              exact Or.inl (List.mem_of_mem_getLast? hseam)
            · exact Or.inr (List.mem_append_left _ (by simpa [he] using hes))
        · exact Or.inr (List.mem_append_right _ hflat)

theorem flatMap_drop_length (t : List TowerRing) (hlen : ∀ f ∈ t, f.elements ≠ []) :
    (t.flatMap (fun r => r.elements.drop 1)).length + t.length =
      (t.map (fun f => f.elements.length)).sum := by
  induction t with
  | nil => simp
  | cons r rest ih =>
    simp only [List.flatMap_cons, List.length_append, List.map_cons, List.sum_cons]
    have hr : r.elements.length ≥ 1 :=
      List.length_pos.mpr (hlen r (by simp))
    have := ih (fun f hf => hlen f (List.mem_cons_of_mem _ hf))
    simp only [List.length_drop, List.length_cons]
    omega

theorem chainElements_length_eq (g : List TowerRing) (hg : g ≠ [])
    (hlen : ∀ f ∈ g, f.elements ≠ []) :
    (chainElements g).length + g.length =
      (g.map (fun f => f.elements.length)).sum + 1 := by
  cases g with
  | nil => exact absurd rfl hg
  | cons r t =>
    rw [chainElements_cons]
    simp only [List.length_append, List.map_cons, List.sum_cons, List.length_cons]
    have := flatMap_drop_length t (fun f hf => hlen f (List.mem_cons_of_mem _ hf))
    omega

theorem chainOffset_succ (g : List TowerRing) (i : ℕ) :
    chainOffset g (i + 1) = chainOffset g i + ((g.getD i ⟨[]⟩).elements.length - 1) :=
  rfl

theorem chainOffset_shift (f : TowerRing) (rest : List TowerRing) :
    ∀ i : ℕ, chainOffset (f :: rest) (i + 1) =
      (f.elements.length - 1) + chainOffset rest i := by
  intro i
  induction i with
  | zero => simp [chainOffset]
  | succ n ihn =>
    rw [chainOffset_succ, ihn, chainOffset_succ]
    simp only [List.getD_cons_succ]
    omega

theorem chainOffset_strict_mono (g : List TowerRing)
    (hlen : ∀ f ∈ g, 2 ≤ f.elements.length) :
    ∀ i, i < g.length → chainOffset g i < chainOffset g (i + 1) := by
  intro i hi
  rw [chainOffset_succ]
  have h2 : 2 ≤ (g.getD i ⟨[]⟩).elements.length := by
    rw [List.getD_eq_getElem _ _ hi]
    exact hlen _ (List.getElem_mem hi)
  omega

theorem chainOffset_le_of_le (g : List TowerRing)
    (hlen : ∀ f ∈ g, 2 ≤ f.elements.length) :
    ∀ i j, i ≤ j → j ≤ g.length → chainOffset g i ≤ chainOffset g j := by
  intro i j hij hj
  induction j with
  | zero => simp_all
  | succ n ihn =>
    rcases Nat.lt_or_ge i (n + 1) with hlt | hge
    · have := ihn (by omega) (by omega)
      have := chainOffset_strict_mono g hlen n (by omega)
      omega
    · have : i = n + 1 := by omega
      subst this
      exact le_rfl

theorem chainOffset_add_len_le (g : List TowerRing)
    (hlen : ∀ f ∈ g, 2 ≤ f.elements.length) :
    ∀ i, i < g.length →
      chainOffset g i + (g.getD i ⟨[]⟩).elements.length ≤ (chainElements g).length := by
  intro i hi
  induction g generalizing i with
  | nil => simp at hi
  | cons r t iht =>
    have hlen_t : ∀ f ∈ t, 2 ≤ f.elements.length :=
      fun f hf => hlen f (List.mem_cons_of_mem _ hf)
    have hlen_all : ∀ f ∈ r :: t, f.elements ≠ [] := by
      intro f hf
      have := hlen f hf
      intro hempty
      rw [hempty] at this
      simp at this
    cases i with
    | zero =>
      simp only [chainOffset, List.getD_cons_zero, Nat.zero_add]
      rw [chainElements_cons]
      simp
    | succ n =>
      rw [chainOffset_shift, List.getD_cons_succ]
      have hn : n < t.length := by simpa using hi
      have := iht hlen_t n hn
      rw [chainElements_cons]
      have hr : 2 ≤ r.elements.length := hlen r (by simp)
      have hflat := flatMap_drop_length t (fun f hf => hlen_all f (List.mem_cons_of_mem _ hf))
      have ht_ne : t ≠ [] := by rintro rfl; simp at hn
      have := chainElements_length_eq t ht_ne
        (fun f hf => hlen_all f (List.mem_cons_of_mem _ hf))
      simp only [List.length_append]
      omega

theorem flatMap_drop_eq_chain_drop (t : List TowerRing) (ht : t ≠ [])
    (hlen : ∀ f ∈ t, f.elements ≠ []) :
    t.flatMap (fun r => r.elements.drop 1) = (chainElements t).drop 1 := by
  cases t with
  | nil => exact absurd rfl ht
  | cons t0 tt =>
    rw [List.flatMap_cons, chainElements_cons, List.drop_append_eq_append_drop]
    have h0 : t0.elements ≠ [] := hlen t0 (by simp)
    have h1 : 1 ≤ t0.elements.length := List.length_pos.mpr h0
    congr 1
    simp [Nat.sub_eq_zero_of_le h1]

theorem chain_get_offset (g : List TowerRing) (hch : List.Chain' seam g)
    (hlen : ∀ f ∈ g, 2 ≤ f.elements.length) :
    ∀ i, i < g.length →
      (chainElements g)[chainOffset g i]? = (g.getD i ⟨[]⟩).elements.head? := by
  induction g with
  | nil => intro i hi; simp at hi
  | cons r t ih =>
    have hr2 : 2 ≤ r.elements.length := hlen r (by simp)
    have hrne : r.elements ≠ [] := by
      intro h; rw [h] at hr2; simp at hr2
    have hlent : ∀ f ∈ t, 2 ≤ f.elements.length :=
      fun f hf => hlen f (List.mem_cons_of_mem _ hf)
    have hlent' : ∀ f ∈ t, f.elements ≠ [] := by
      intro f hf h
      have := hlent f hf
      rw [h] at this; simp at this
    intro i hi
    cases i with
    | zero =>
      show (chainElements (r :: t))[(0:ℕ)]? = _
      rw [chainElements_cons, List.getElem?_append_left (by omega)]
      simp only [List.getD_cons_zero]
      rw [← List.head?_eq_getElem?]
    | succ n =>
      have ht : t ≠ [] := by
        rintro rfl
        simp at hi
      have hn : n < t.length := by simpa using hi
      rw [chainOffset_shift, chainElements_cons,
        flatMap_drop_eq_chain_drop t ht hlent']
      rcases Nat.eq_zero_or_pos (chainOffset t n) with hq | hq
      · -- the offset lands on the seam element at the end of r
        have hn0 : n = 0 := by
          by_contra hne
          have h1 : 1 ≤ n := by omega
          have := chainOffset_le_of_le t hlent 1 n h1 (by omega)
          have := chainOffset_strict_mono t hlent 0 (by omega)
          simp only [chainOffset] at *
          omega
        subst hn0
        rw [hq]
        rw [List.getElem?_append_left (by omega)]
        have hseam : seam r (t.headD ⟨[]⟩) := by
          cases t with
          | nil => exact absurd rfl ht
          | cons t0 tt => exact (List.chain'_cons.mp hch).1
        rw [seam] at hseam
        rw [List.getLast?_eq_getElem?] at hseam
        simp only [Nat.add_zero]
        rw [hseam]
        cases t with
        | nil => exact absurd rfl ht
        | cons t0 tt => simp
      · -- the offset lands inside the tail chain
        rw [List.getElem?_append_right (by omega)]
        have harith : r.elements.length - 1 + chainOffset t n - r.elements.length =
            chainOffset t n - 1 := by omega
        rw [harith, List.getElem?_drop]
        have harith2 : 1 + (chainOffset t n - 1) = chainOffset t n := by omega
        rw [harith2]
        have := ih (List.Chain'.tail hch) hlent n hn
        rw [this]
        cases t with
        | nil => exact absurd rfl ht
        | cons t0 tt => simp

theorem chainOffset_bound (g : List TowerRing) (_hg : g ≠ [])
    (hlen : ∀ f ∈ g, 2 ≤ f.elements.length) (i : ℕ) (hi : i < g.length) :
    chainOffset g i + 2 ≤ (chainElements g).length := by
  have h1 := chainOffset_add_len_le g hlen i hi
  have h2 : 2 ≤ (g.getD i ⟨[]⟩).elements.length := by
    rw [List.getD_eq_getElem _ _ hi]
    exact hlen _ (List.getElem_mem hi)
  omega

theorem chainOffset_lt (g : List TowerRing)
    (hlen : ∀ f ∈ g, 2 ≤ f.elements.length) (i j : ℕ) (hij : i < j) (hj : j ≤ g.length) :
    chainOffset g i < chainOffset g j := by
  have h1 := chainOffset_strict_mono g hlen i (by omega)
  have h2 := chainOffset_le_of_le g hlen (i + 1) j (by omega) hj
  omega

theorem head_eq_chain_getElem (g : List TowerRing) (hch : List.Chain' seam g)
    (hlen : ∀ f ∈ g, 2 ≤ f.elements.length) (i : ℕ) (hi : i < g.length)
    (hco : chainOffset g i < (chainElements g).length) :
    (g.getD i ⟨[]⟩).elements.head? = some ((chainElements g).get ⟨chainOffset g i, hco⟩) := by
  rw [← chain_get_offset g hch hlen i hi]
  rw [List.getElem?_eq_getElem hco]
  rfl

theorem group_heads_nodup (g : List TowerRing) (hch : CyclicChain g)
    (hlen : ∀ f ∈ g, 2 ≤ f.elements.length)
    (hnd : (chainElements g).dropLast.Nodup) :
    (g.map (fun f => f.elements.head?)).Nodup := by
  rcases hch with ⟨hg, hch', _⟩
  rw [List.nodup_iff_injective_get]
  intro ⟨i, hi⟩ ⟨j, hj⟩ hij
  simp only [List.length_map] at hi hj
  simp only [List.get_eq_getElem, List.getElem_map] at hij
  by_contra hne
  have hne' : i ≠ j := by simpa using hne
  -- wlog i < j
  rcases Nat.lt_or_ge i j with hlt | hge
  case _ =>
    have hb_i := chainOffset_bound g hg hlen i hi
    have hb_j := chainOffset_bound g hg hlen j hj
    have hco_i : chainOffset g i < (chainElements g).length := by omega
    have hco_j : chainOffset g j < (chainElements g).length := by omega
    have e1 := head_eq_chain_getElem g hch' hlen i hi hco_i
    have e2 := head_eq_chain_getElem g hch' hlen j hj hco_j
    rw [List.getD_eq_getElem _ _ hi] at e1
    rw [List.getD_eq_getElem _ _ hj] at e2
    rw [e1, e2] at hij
    simp only [Option.some.injEq, List.get_eq_getElem] at hij
    have hlt2 := chainOffset_lt g hlen i j hlt (by omega)
    have hdl_i : chainOffset g i < (chainElements g).dropLast.length := by
      simp [List.length_dropLast]; omega
    have hdl_j : chainOffset g j < (chainElements g).dropLast.length := by
      simp [List.length_dropLast]; omega
    have : (chainElements g).dropLast[chainOffset g i] =
        (chainElements g).dropLast[chainOffset g j] := by
      rw [List.getElem_dropLast, List.getElem_dropLast]
      exact hij
    have := (hnd.getElem_inj_iff).mp this
    omega
  case _ =>
    have hlt : j < i := by omega
    have hb_i := chainOffset_bound g hg hlen i hi
    have hb_j := chainOffset_bound g hg hlen j hj
    have hco_i : chainOffset g i < (chainElements g).length := by omega
    have hco_j : chainOffset g j < (chainElements g).length := by omega
    have e1 := head_eq_chain_getElem g hch' hlen i hi hco_i
    have e2 := head_eq_chain_getElem g hch' hlen j hj hco_j
    rw [List.getD_eq_getElem _ _ hi] at e1
    rw [List.getD_eq_getElem _ _ hj] at e2
    rw [e1, e2] at hij
    simp only [Option.some.injEq, List.get_eq_getElem] at hij
    have hlt2 := chainOffset_lt g hlen j i hlt (by omega)
    have hdl_i : chainOffset g i < (chainElements g).dropLast.length := by
      simp [List.length_dropLast]; omega
    have hdl_j : chainOffset g j < (chainElements g).dropLast.length := by
      simp [List.length_dropLast]; omega
    have : (chainElements g).dropLast[chainOffset g i] =
        (chainElements g).dropLast[chainOffset g j] := by
      rw [List.getElem_dropLast, List.getElem_dropLast]
      exact hij
    have := (hnd.getElem_inj_iff).mp this
    omega

theorem getLastD_eq_getElem (g : List TowerRing) (hg : g ≠ []) (d : TowerRing) :
    g.getLastD d = getElem g (g.length - 1) (by
      have := List.length_pos.mpr hg
      omega) := by
  rw [List.getLastD_eq_getLast?, List.getLast?_eq_getElem?]
  rw [List.getElem?_eq_getElem]
  rfl

theorem headD_eq_getElem (g : List TowerRing) (hg : g ≠ []) (d : TowerRing) :
    g.headD d = getElem g 0 (List.length_pos.mpr hg) := by
  cases g with
  | nil => exact absurd rfl hg
  | cons a t => rfl

theorem group_member_incomplete (g : List TowerRing) (hch : CyclicChain g)
    (hlen : ∀ f ∈ g, 2 ≤ f.elements.length)
    (hnd : (chainElements g).dropLast.Nodup) (hk : 2 ≤ g.length) :
    ∀ f ∈ g, ¬ f.elements.head? = f.elements.getLast? := by
  rcases hch with ⟨hg, hch', hwrap⟩
  intro f hf heq
  rcases List.mem_iff_getElem.mp hf with ⟨i, hi, rfl⟩
  -- the last element of member i is the head of its cyclic successor
  have hb_i := chainOffset_bound g hg hlen i hi
  have hco_i : chainOffset g i < (chainElements g).length := by omega
  have e1 := head_eq_chain_getElem g hch' hlen i hi hco_i
  rw [List.getD_eq_getElem _ _ hi] at e1
  rcases Nat.lt_or_ge (i + 1) g.length with hsucc | hlast
  · -- interior member: seam with the next member
    have hseam : seam g[i] g[i + 1] := by
      have := List.chain'_iff_get.mp hch' i (by omega)
      simpa using this
    rw [seam] at hseam
    have hb_s := chainOffset_bound g hg hlen (i + 1) hsucc
    have hco_s : chainOffset g (i + 1) < (chainElements g).length := by omega
    have e2 := head_eq_chain_getElem g hch' hlen (i + 1) hsucc hco_s
    rw [List.getD_eq_getElem _ _ hsucc] at e2
    rw [hseam, e2] at heq
    rw [e1] at heq
    simp only [Option.some.injEq, List.get_eq_getElem] at heq
    have hlt2 := chainOffset_lt g hlen i (i + 1) (by omega) (by omega)
    have hdl_i : chainOffset g i < (chainElements g).dropLast.length := by
      simp [List.length_dropLast]; omega
    have hdl_s : chainOffset g (i + 1) < (chainElements g).dropLast.length := by
      simp [List.length_dropLast]; omega
    have : (chainElements g).dropLast[chainOffset g i] =
        (chainElements g).dropLast[chainOffset g (i + 1)] := by
      rw [List.getElem_dropLast, List.getElem_dropLast]
      exact heq
    have := (hnd.getElem_inj_iff).mp this
    omega
  · -- final member: the wrap seam points back to the first member
    have hieq : i = g.length - 1 := by omega
    have hwrap' : seam g[i] (g.headD ⟨[]⟩) := by
      rw [getLastD_eq_getElem g hg] at hwrap
      have : g[g.length - 1] = g[i] := by
        congr 1
        omega
      rw [this] at hwrap
      exact hwrap
    rw [seam, headD_eq_getElem g hg] at hwrap'
    have hb_0 := chainOffset_bound g hg hlen 0 (by omega)
    have hco_0 : chainOffset g 0 < (chainElements g).length := by omega
    have e0 := head_eq_chain_getElem g hch' hlen 0 (by omega) hco_0
    rw [List.getD_eq_getElem _ _ (by omega)] at e0
    rw [hwrap', e0, e1] at heq
    simp only [Option.some.injEq, List.get_eq_getElem] at heq
    have hlt2 : chainOffset g 0 < chainOffset g i := by
      apply chainOffset_lt g hlen 0 i (by omega) (by omega)
    have hdl_i : chainOffset g i < (chainElements g).dropLast.length := by
      simp [List.length_dropLast]; omega
    have hdl_0 : chainOffset g 0 < (chainElements g).dropLast.length := by
      simp [List.length_dropLast]; omega
    have : (chainElements g).dropLast[chainOffset g i] =
        (chainElements g).dropLast[chainOffset g 0] := by
      rw [List.getElem_dropLast, List.getElem_dropLast]
      exact heq
    have := (hnd.getElem_inj_iff).mp this
    omega

theorem cyclicChain_rotate (l1 l2 : List TowerRing) (h : CyclicChain (l1 ++ l2))
    (hne : l2 ≠ []) : CyclicChain (l2 ++ l1) := by
  rcases h with ⟨hne0, hch, hwrap⟩
  rcases List.chain'_append.mp hch with ⟨hc1, hc2, hbdry⟩
  refine ⟨by simp [hne], List.chain'_append.mpr ⟨hc2, hc1, ?_⟩, ?_⟩
  · -- boundary between l2 and l1 is the old wrap seam
    intro x hx y hy
    rw [Option.mem_def] at hx hy
    have hgl : (l1 ++ l2).getLastD ⟨[]⟩ = x := by
      rw [List.getLastD_eq_getLast?, List.getLast?_append_of_ne_nil l1 hne, hx]
      rfl
    have hhd : (l1 ++ l2).headD ⟨[]⟩ = y := by
      cases l1 with
      | nil => simp at hy
      | cons a2 t2 =>
        simp only [List.cons_append, List.headD_cons]
        simp only [List.head?_cons, Option.some.injEq] at hy
        exact hy
    rw [← hgl, ← hhd]
    exact hwrap
  · -- the new wrap seam is the old boundary between l1 and l2
    cases h1 : l1 with
    | nil =>
      subst h1
      simpa using hwrap
    | cons a t =>
      have hl1ne : l1 ≠ [] := by simp [h1]
      rw [← h1]
      have hgl : (l2 ++ l1).getLastD ⟨[]⟩ = l1.getLastD ⟨[]⟩ := by
        rw [List.getLastD_eq_getLast?, List.getLast?_append_of_ne_nil l2 hl1ne,
          List.getLastD_eq_getLast?]
      have hhd : (l2 ++ l1).headD ⟨[]⟩ = l2.headD ⟨[]⟩ := by
        cases l2 with
        | nil => exact absurd rfl hne
        | cons b u => rfl
      rw [hgl, hhd]
      apply hbdry
      · cases hgl2 : l1.getLast? with
        | none =>
          rw [List.getLast?_eq_none_iff] at hgl2
          exact absurd hgl2 hl1ne
        | some v => simp [List.getLastD_eq_getLast?, hgl2]
      · cases l2 with
        | nil => exact absurd rfl hne
        | cons b u => simp

theorem groupInv_rotate (l1 l2 : List TowerRing) (h : GroupInv (l1 ++ l2))
    (hne : l2 ≠ []) : GroupInv (l2 ++ l1) := by
  have hperm : (l2 ++ l1).Perm (l1 ++ l2) := List.perm_append_comm
  refine ⟨by simp [hne], cyclicChain_rotate l1 l2 h.chained hne, ?_, ?_, ?_, ?_⟩
  · intro f hf
    exact h.mem_len f (hperm.mem_iff.mp hf)
  · have : ((l2 ++ l1).map (fun f => f.elements.head?)).Perm
        ((l1 ++ l2).map (fun f => f.elements.head?)) := hperm.map _
    exact this.nodup_iff.mpr h.heads_nodup
  · have : ((l2 ++ l1).map (fun f => f.elements.length)).sum =
        ((l1 ++ l2).map (fun f => f.elements.length)).sum :=
      (hperm.map _).sum_eq
    rw [this]
    have : (l2 ++ l1).length = (l1 ++ l2).length := by simp [Nat.add_comm]
    rw [this]
    exact h.total_len
  · intro hk f hf
    exact h.incomplete (by simpa [Nat.add_comm] using hk) f (hperm.mem_iff.mp hf)

theorem join_head? (f h : TowerRing) (hf : f.elements ≠ []) :
    (TowerRing.join_rings_in_place f h).elements.head? = f.elements.head? := by
  simp only [TowerRing.join_rings_in_place]
  exact List.head?_append_of_ne_nil _ hf

theorem join_getLast? (f h : TowerRing) (hh : 2 ≤ h.elements.length) :
    (TowerRing.join_rings_in_place f h).elements.getLast? = h.elements.getLast? := by
  simp only [TowerRing.join_rings_in_place]
  cases he : h.elements with
  | nil => rw [he] at hh; simp at hh
  | cons e es =>
    cases hes : es with
    | nil => rw [he, hes] at hh; simp at hh
    | cons x xs =>
      rw [List.getLast?_append_of_ne_nil _ (by simp [hes])]
      simp [hes, List.getLast?_cons_cons]

theorem join_length (f h : TowerRing) (hh : 1 ≤ h.elements.length) :
    (TowerRing.join_rings_in_place f h).elements.length =
      f.elements.length + h.elements.length - 1 := by
  simp only [TowerRing.join_rings_in_place, List.length_append, List.length_drop]
  omega

theorem GroupInv.merge_head {f h : TowerRing} {rest : List TowerRing}
    (hg : GroupInv (f :: h :: rest)) :
    GroupInv ((TowerRing.join_rings_in_place f h) :: rest) := by
  have hf2 : 2 ≤ f.elements.length := hg.mem_len f (by simp)
  have hh2 : 2 ≤ h.elements.length := hg.mem_len h (by simp)
  have hfne : f.elements ≠ [] := by
    intro he; rw [he] at hf2; simp at hf2
  rcases hg.chained with ⟨_, hch, hwrap⟩
  rcases List.chain'_cons.mp hch with ⟨hseam_fh, hch2⟩
  refine ⟨by simp, ⟨by simp, ?_, ?_⟩, ?_, ?_, ?_, ?_⟩
  · -- linear chain of the merged group
    cases rest with
    | nil => simp
    | cons r0 rt =>
      rw [List.chain'_cons]
      rcases List.chain'_cons.mp hch2 with ⟨hseam_hr, hch3⟩
      refine ⟨?_, hch3⟩
      rw [seam, join_getLast? f h hh2]
      exact hseam_hr
  · -- wrap seam of the merged group
    cases rest with
    | nil =>
      simp only [List.getLastD_cons, List.headD_cons, List.getLastD_nil]
      rw [seam, join_getLast? f h hh2, join_head? f h hfne]
      -- old wrap: last of [f, h] is h; head is f
      simp only [List.getLastD_cons, List.getLastD_nil, List.headD_cons] at hwrap
      exact hwrap
    | cons r0 rt =>
      have hlast : ((TowerRing.join_rings_in_place f h) :: r0 :: rt).getLastD ⟨[]⟩ =
          (f :: h :: r0 :: rt).getLastD ⟨[]⟩ := by
        simp [List.getLastD_cons]
      rw [hlast]
      simp only [List.headD_cons]
      rw [seam, join_head? f h hfne]
      simp only [List.headD_cons] at hwrap
      exact hwrap
  · -- member lengths
    intro x hx
    rcases List.mem_cons.mp hx with rfl | hxr
    · rw [join_length f h (by omega)]
      omega
    · exact hg.mem_len x (by simp [hxr])
  · -- heads remain distinct
    have hmap : ((TowerRing.join_rings_in_place f h) :: rest).map
        (fun f => f.elements.head?) =
          f.elements.head? :: rest.map (fun f => f.elements.head?) := by
      simp [join_head? f h hfne]
    rw [hmap]
    have hnd := hg.heads_nodup
    simp only [List.map_cons] at hnd
    rcases List.nodup_cons.mp hnd with ⟨hfmem, hnd2⟩
    rcases List.nodup_cons.mp hnd2 with ⟨_, hnd3⟩
    refine List.nodup_cons.mpr ⟨?_, hnd3⟩
    intro hmem
    exact hfmem (List.mem_cons_of_mem _ hmem)
  · -- total merged length is preserved
    have := hg.total_len
    simp only [List.map_cons, List.sum_cons, List.length_cons] at this ⊢
    rw [join_length f h (by omega)]
    omega
  · -- members of a still-unfinished group remain open
    intro hk x hx
    have hrne : rest ≠ [] := by
      rintro rfl
      simp at hk
    rcases List.mem_cons.mp hx with rfl | hxr
    · rw [join_head? f h hfne, join_getLast? f h hh2]
      cases rest with
      | nil => exact absurd rfl hrne
      | cons r0 rt =>
        rcases List.chain'_cons.mp hch2 with ⟨hseam_hr, _⟩
        rw [seam] at hseam_hr
        rw [hseam_hr]
        -- f's head differs from r0's head by head distinctness
        have hnd := hg.heads_nodup
        simp only [List.map_cons] at hnd
        rcases List.nodup_cons.mp hnd with ⟨hfmem, _⟩
        intro heq
        exact hfmem (by simp [heq])
    · exact hg.incomplete (by simp) x (by simp [hxr])

theorem list_set_getElem_self {α : Type} : ∀ (l : List α) (i : ℕ) (hi : i < l.length),
    l.set i l[i] = l := by
  intro l
  induction l with
  | nil => intro i hi; simp at hi
  | cons x t ih =>
    intro i hi
    cases i with
    | zero => simp
    | succ n =>
      simp only [List.getElem_cons_succ, List.set_cons_succ, List.cons.injEq, true_and]
      exact ih n (by simpa using hi)

theorem list_perm_getElem_cons_eraseIdx {α : Type} :
    ∀ (l : List α) (i : ℕ) (hi : i < l.length), l.Perm (l[i] :: l.eraseIdx i) := by
  intro l
  induction l with
  | nil => intro i hi; simp at hi
  | cons x t ih =>
    intro i hi
    cases i with
    | zero => simp [List.eraseIdx]
    | succ n =>
      simp only [List.getElem_cons_succ, List.eraseIdx_cons_succ]
      have h1 := ih n (by simpa using hi)
      exact (h1.cons x).trans (List.Perm.swap _ _ _)

theorem list_set_perm {α : Type} (l : List α) (i : ℕ) (hi : i < l.length) (a : α) :
    (l.set i a).Perm (a :: l.eraseIdx i) := by
  induction l generalizing i with
  | nil => simp at hi
  | cons x t ih =>
    cases i with
    | zero => simp [List.eraseIdx]
    | succ n =>
      simp only [List.set_cons_succ, List.eraseIdx_cons_succ]
      have h1 := ih n (by simpa using hi)
      exact (h1.cons x).trans (List.Perm.swap _ _ _)

theorem list_map_eraseIdx {α β : Type} (f : α → β) :
    ∀ (l : List α) (i : ℕ), (l.eraseIdx i).map f = (l.map f).eraseIdx i := by
  intro l
  induction l with
  | nil => intro i; simp
  | cons x t ih =>
    intro i
    cases i with
    | zero => simp [List.eraseIdx]
    | succ n => simp [List.eraseIdx_cons_succ, ih n]

theorem exists_rotated_group {g : List TowerRing} {f : TowerRing}
    (ginv : GroupInv g) (hf : f ∈ g) :
    ∃ rest, GroupInv (f :: rest) ∧ (f :: rest).Perm g := by
  rcases List.append_of_mem hf with ⟨s, t, rfl⟩
  refine ⟨t ++ s, ?_, ?_⟩
  · have := groupInv_rotate s (f :: t) ginv (by simp)
    simpa using this
  · have h1 : (f :: (t ++ s)) = (f :: t) ++ s := by simp
    rw [h1]
    exact List.perm_append_comm

theorem complete_head_eq_last {r : TowerRing} (h : r.is_complete_ring = true) :
    r.elements.head? = r.elements.getLast? := by
  simp only [TowerRing.is_complete_ring, Bool.and_eq_true, decide_eq_true_eq] at h
  exact h.1

theorem joinInv_all_complete {frags : List TowerRing} {groups : List (List TowerRing)}
    (inv : JoinInv frags 0 groups) : ∀ r ∈ frags, r.is_complete_ring = true := by
  intro r hr
  rcases List.mem_iff_getElem.mp hr with ⟨i, hi, rfl⟩
  rcases Nat.eq_zero_or_pos i with rfl | hpos
  case _ =>
    -- position 0
    have hmem : frags[0] ∈ groups.flatten := inv.perm.subset (List.getElem_mem hi)
    rcases List.mem_flatten.mp hmem with ⟨g, hg, hfg⟩
    have ginv := inv.groups_inv g hg
    rcases exists_rotated_group ginv hfg with ⟨rest, ginv2, hperm⟩
    cases rest with
    | nil =>
      rcases ginv2.chained with ⟨_, _, hwrap⟩
      simp only [List.getLastD_cons, List.getLastD_nil, List.headD_cons, seam] at hwrap
      have hlen : 3 < frags[0].elements.length := by
        have := ginv2.total_len
        simp only [List.map_cons, List.map_nil, List.sum_cons, List.sum_nil,
          List.length_cons, List.length_nil] at this
        omega
      simp [TowerRing.is_complete_ring, hwrap, hlen]
    | cons h rest2 =>
      exfalso
      have hhf : h ∈ frags := inv.perm.mem_iff.mpr
        (List.mem_flatten.mpr ⟨g, hg, hperm.subset (by simp)⟩)
      have hne : h ≠ frags[0] := by
        have hnd := ginv2.heads_nodup
        simp only [List.map_cons] at hnd
        rcases List.nodup_cons.mp hnd with ⟨hmem2, _⟩
        intro heq
        exact hmem2 (by simp [heq])
      rcases List.mem_iff_getElem.mp hhf with ⟨j, hj, rfl⟩
      have hj0 : 0 < j := by
        rcases Nat.eq_zero_or_pos j with rfl | h2
        · exact absurd rfl hne
        · exact h2
      have hcomp := inv.above_complete j hj hj0
      have hopen := ginv2.incomplete (by simp) frags[j] (by simp)
      exact hopen (complete_head_eq_last hcomp)
  case _ =>
    exact inv.above_complete i hi hpos

theorem sum_map_length_all_one {α : Type} :
    ∀ (L : List (List α)), (∀ g ∈ L, g.length = 1) →
      (L.map List.length).sum = L.length := by
  intro L
  induction L with
  | nil => intro _; simp
  | cons g t ih =>
    intro hall
    simp only [List.map_cons, List.sum_cons, List.length_cons]
    rw [hall g (by simp), ih (fun g2 hg2 => hall g2 (by simp [hg2]))]
    omega

theorem joinInv_exit {frags : List TowerRing} {groups : List (List TowerRing)}
    (inv : JoinInv frags 0 groups) :
    frags.length = groups.length ∧ ∀ r ∈ frags, r.is_complete_ring = true := by
  have hall := joinInv_all_complete inv
  refine ⟨?_, hall⟩
  have hsing : ∀ g ∈ groups, g.length = 1 := by
    intro g hg
    have ginv := inv.groups_inv g hg
    by_contra hne
    have h1 : 1 ≤ g.length := List.length_pos.mpr ginv.nonempty
    have hk : 2 ≤ g.length := by omega
    cases g with
    | nil => exact absurd rfl ginv.nonempty
    | cons f t =>
      have hf : f ∈ frags := inv.perm.mem_iff.mpr
        (List.mem_flatten.mpr ⟨f :: t, hg, by simp⟩)
      exact ginv.incomplete hk f (by simp) (complete_head_eq_last (hall f hf))
  rw [inv.perm.length_eq, List.length_flatten, sum_map_length_all_one groups hsing]

theorem pairwise_ringLe_iff (l : List TowerRing) :
    l.Pairwise (fun a b => ringLe a b = true) ↔
      (l.map (fun f => f.elements.head?)).Pairwise
        (fun x y => ¬cmpOptElement x y = .gt) := by
  rw [List.pairwise_map]
  constructor
  · intro h
    exact h.imp (fun hab => by
      simp only [ringLe, cmpRing, ne_eq, decide_eq_true_eq] at hab
      exact hab)
  · intro h
    exact h.imp (fun hab => by
      simp only [ringLe, cmpRing, ne_eq, decide_eq_true_eq]
      exact hab)

theorem sorted_keys_positional {frags : List TowerRing}
    (hsorted : List.Pairwise (fun a b => ringLe a b = true) frags) :
    ∀ p q, p < q → q < frags.length →
      ¬cmpOptElement ((frags.getD p ⟨[]⟩).elements.head?)
        ((frags.getD q ⟨[]⟩).elements.head?) = .gt := by
  intro p q hpq hq
  have hp : p < frags.length := by omega
  rw [List.getD_eq_getElem _ _ hp, List.getD_eq_getElem _ _ hq]
  have := List.pairwise_iff_getElem.mp hsorted p q hp hq hpq
  simp only [ringLe, cmpRing, ne_eq, decide_eq_true_eq] at this
  exact this

theorem key_position_unique {frags : List TowerRing}
    (hnodup : (frags.map (fun f => f.elements.head?)).Nodup)
    {i j : ℕ} (hi : i < frags.length) (hj : j < frags.length)
    (heq : (frags[i]).elements.head? = (frags[j]).elements.head?) : i = j := by
  have hmi : i < (frags.map (fun f => f.elements.head?)).length := by simpa using hi
  have hmj : j < (frags.map (fun f => f.elements.head?)).length := by simpa using hj
  have : (frags.map (fun f => f.elements.head?))[i] =
      (frags.map (fun f => f.elements.head?))[j] := by
    simp only [List.getElem_map]
    exact heq
  exact (hnodup.getElem_inj_iff).mp this

theorem search_finds_position {frags : List TowerRing}
    (hsorted : List.Pairwise (fun a b => ringLe a b = true) frags)
    (hnodup : (frags.map (fun f => f.elements.head?)).Nodup)
    (jh : ℕ) (hjh : jh < frags.length) :
    binarySearchByFirst frags ((frags[jh]).elements.head?) = some jh := by
  rcases binarySearchByFirst_found frags ((frags[jh]).elements.head?)
      (sorted_keys_positional hsorted) jh hjh
      (by rw [List.getD_eq_getElem _ _ hjh]) with ⟨i, hfound, hlt, hkey⟩
  rw [List.getD_eq_getElem _ _ hlt] at hkey
  have heq := key_position_unique hnodup hlt hjh hkey
  rw [heq] at hfound
  exact hfound

theorem joinInv_step_down {frags : List TowerRing} {fp : ℕ}
    {groups : List (List TowerRing)} (inv : JoinInv frags fp groups)
    (hfp : 0 < fp) (hcomp : (getElem frags fp inv.fp_lt).is_complete_ring = true) :
    JoinInv frags (fp - 1) groups := by
  refine ⟨inv.perm, inv.sorted, inv.heads_nodup, inv.mem_len, inv.groups_inv,
    by have := inv.fp_lt; omega, ?_⟩
  intro i hi hgt
  rcases Nat.lt_or_ge fp i with h2 | h2
  · exact inv.above_complete i hi h2
  · have : i = fp := by omega
    subst this
    exact hcomp

theorem perm_shuffle {α : Type} (A B C : List α) :
    (A ++ (B ++ C)).Perm (B ++ (A ++ C)) := by
  have h1 : A ++ (B ++ C) = (A ++ B) ++ C := (List.append_assoc A B C).symm
  have h2 : B ++ (A ++ C) = (B ++ A) ++ C := (List.append_assoc B A C).symm
  rw [h1, h2]
  exact List.perm_append_comm.append_right C

theorem joinInv_step_merge {frags : List TowerRing} {fp : ℕ}
    {G1 G2 : List (List TowerRing)} {g : List TowerRing} {h : TowerRing}
    {rest : List TowerRing}
    (inv : JoinInv frags fp (G1 ++ g :: G2)) (hfp : 0 < fp)
    (ginv2 : GroupInv ((getElem frags fp inv.fp_lt) :: h :: rest))
    (hperm : ((getElem frags fp inv.fp_lt) :: h :: rest).Perm g)
    (jh : ℕ) (hjh : jh < frags.length) (hh : frags[jh] = h) (hjfp : jh < fp) :
    JoinInv ((frags.eraseIdx jh).set (fp - 1)
        (TowerRing.join_rings_in_place (getElem frags fp inv.fp_lt) h))
      (fp - 1)
      (G1 ++ ((TowerRing.join_rings_in_place (getElem frags fp inv.fp_lt) h) :: rest) :: G2) := by
  have hfp_lt := inv.fp_lt
  set f := getElem frags fp hfp_lt with hf
  set J := TowerRing.join_rings_in_place f h with hJ
  set E := (frags.eraseIdx jh).eraseIdx (fp - 1) with hE
  have hlen_erase : (frags.eraseIdx jh).length = frags.length - 1 := by
    rw [List.length_eraseIdx]
    simp [hjh]
  have hfp1_lt : fp - 1 < (frags.eraseIdx jh).length := by omega
  have herase_at : getElem (frags.eraseIdx jh) (fp - 1) hfp1_lt = f := by
    rw [List.getElem_eraseIdx]
    have : ¬ (fp - 1 < jh) := by omega
    rw [dif_neg this]
    have harith : fp - 1 + 1 = fp := by omega
    simp only [harith]
  have hf2 : 2 ≤ f.elements.length := ginv2.mem_len f (by simp)
  have hh2 : 2 ≤ h.elements.length := ginv2.mem_len h (by simp)
  have hfne : f.elements ≠ [] := by
    intro he; rw [he] at hf2; simp at hf2
  have hJ_head : J.elements.head? = f.elements.head? := join_head? f h hfne
  -- multiset bookkeeping
  have hp1 : frags.Perm (f :: h :: (rest ++ (G1.flatten ++ G2.flatten))) := by
    have e0 : (G1 ++ g :: G2).flatten = G1.flatten ++ (g ++ G2.flatten) := by
      rw [List.flatten_append, List.flatten_cons]
    have e1 : (G1 ++ g :: G2).flatten.Perm
        (G1.flatten ++ ((f :: h :: rest) ++ G2.flatten)) := by
      rw [e0]
      exact (hperm.symm.append_right G2.flatten).append_left G1.flatten
    have e2 : (G1.flatten ++ ((f :: h :: rest) ++ G2.flatten)).Perm
        ((f :: h :: rest) ++ (G1.flatten ++ G2.flatten)) :=
      perm_shuffle G1.flatten (f :: h :: rest) G2.flatten
    exact (inv.perm.trans e1).trans (by simpa using e2)
  have hpE : E.Perm (rest ++ (G1.flatten ++ G2.flatten)) := by
    have e1 : frags.Perm (h :: frags.eraseIdx jh) := by
      have := list_perm_getElem_cons_eraseIdx frags jh hjh
      rw [hh] at this
      exact this
    have e2 : (frags.eraseIdx jh).Perm (f :: E) := by
      have := list_perm_getElem_cons_eraseIdx (frags.eraseIdx jh) (fp - 1) hfp1_lt
      rw [herase_at] at this
      exact this
    have e4 : (h :: f :: E).Perm (f :: h :: E) := List.Perm.swap _ _ _
    have e5 : frags.Perm (h :: f :: E) := e1.trans (e2.cons h)
    have e6 : (f :: h :: E).Perm (f :: h :: (rest ++ (G1.flatten ++ G2.flatten))) :=
      (e4.symm.trans e5.symm).trans hp1
    exact (e6.cons_inv).cons_inv
  have hp3 : ((frags.eraseIdx jh).set (fp - 1) J).Perm (J :: E) := by
    exact list_set_perm _ _ hfp1_lt J
  have hp_goal : ((frags.eraseIdx jh).set (fp - 1) J).Perm
      ((G1 ++ (J :: rest) :: G2).flatten) := by
    have e1 : (G1 ++ (J :: rest) :: G2).flatten =
        G1.flatten ++ ((J :: rest) ++ G2.flatten) := by
      rw [List.flatten_append, List.flatten_cons]
    have e2 : (G1.flatten ++ ((J :: rest) ++ G2.flatten)).Perm
        ((J :: rest) ++ (G1.flatten ++ G2.flatten)) :=
      perm_shuffle G1.flatten (J :: rest) G2.flatten
    have e3 : ((J :: rest) ++ (G1.flatten ++ G2.flatten)) =
        J :: (rest ++ (G1.flatten ++ G2.flatten)) := by simp
    refine hp3.trans ?_
    rw [e1]
    refine ((hpE.cons J).trans ?_)
    rw [← e3]
    exact e2.symm
  -- key-list equation
  have hkeys : ((frags.eraseIdx jh).set (fp - 1) J).map (fun r => r.elements.head?) =
      (frags.map (fun r => r.elements.head?)).eraseIdx jh := by
    rw [List.map_set]
    rw [list_map_eraseIdx]
    have hlen2 : fp - 1 < ((frags.map (fun r => r.elements.head?)).eraseIdx jh).length := by
      rw [← list_map_eraseIdx]
      simpa using hfp1_lt
    have hmapeq : (frags.map (fun r => r.elements.head?)).eraseIdx jh =
        (frags.eraseIdx jh).map (fun r => r.elements.head?) :=
      (list_map_eraseIdx _ frags jh).symm
    have hval : getElem ((frags.map (fun r => r.elements.head?)).eraseIdx jh) (fp - 1) hlen2 =
        J.elements.head? := by
      simp only [hmapeq, List.getElem_map, herase_at, hJ_head]
    rw [← hval]
    exact list_set_getElem_self _ _ hlen2
  refine ⟨hp_goal, ?_, ?_, ?_, ?_, ?_, ?_⟩
  · -- sortedness
    rw [pairwise_ringLe_iff, hkeys]
    exact List.Pairwise.sublist (List.eraseIdx_sublist _ jh)
      ((pairwise_ringLe_iff frags).mp inv.sorted)
  · -- head distinctness
    rw [hkeys]
    exact (List.eraseIdx_sublist _ jh).nodup inv.heads_nodup
  · -- member lengths
    intro x hx
    rcases List.mem_cons.mp (hp3.subset hx) with rfl | hxE
    · rw [join_length f h (by omega)]
      omega
    · have : x ∈ frags := by
        have s1 : E.Sublist (frags.eraseIdx jh) := List.eraseIdx_sublist _ _
        have s2 : (frags.eraseIdx jh).Sublist frags := List.eraseIdx_sublist _ _
        exact (s1.trans s2).subset hxE
      exact inv.mem_len x this
  · -- group invariants
    intro g2 hg2
    rcases List.mem_append.mp hg2 with hg1 | hgc
    · exact inv.groups_inv g2 (List.mem_append_left _ hg1)
    · rcases List.mem_cons.mp hgc with rfl | hgG2
      · exact GroupInv.merge_head ginv2
      · exact inv.groups_inv g2 (List.mem_append_right _ (List.mem_cons_of_mem _ hgG2))
  · -- fp bound
    simp only [List.length_set]
    omega
  · -- completeness above the cursor
    intro i hi hgt
    simp only [List.length_set] at hi
    have hine : ¬ (fp - 1 = i) := by omega
    rw [List.getElem_set, if_neg hine]
    rw [List.getElem_eraseIdx]
    have : ¬ (i < jh) := by omega
    rw [dif_neg this]
    exact inv.above_complete (i + 1) (by omega) (by omega)

theorem joinLoop_spec : ∀ (fuel : ℕ) (frags : List TowerRing) (fp : ℕ)
    (groups : List (List TowerRing)), JoinInv frags fp groups →
    fp + frags.length < fuel →
    (joinLoop fuel frags fp).length = groups.length ∧
    ∀ r ∈ joinLoop fuel frags fp, r.is_complete_ring = true := by
  intro fuel
  induction fuel with
  | zero => intro frags fp groups inv hf; omega
  | succ n ih =>
    intro frags fp groups inv hfuel
    by_cases hfp : 0 < fp
    case neg =>
      have hfp0 : fp = 0 := by omega
      subst hfp0
      have hred : joinLoop (n + 1) frags 0 = frags := by
        simp [joinLoop]
      rw [hred]
      have hexit := joinInv_exit inv
      exact ⟨hexit.1, hexit.2⟩
    case pos =>
      have hfp_lt := inv.fp_lt
      have hgetD : frags.getD fp ⟨[]⟩ = frags[fp] := List.getD_eq_getElem _ _ hfp_lt
      have hfmem : frags[fp] ∈ groups.flatten := inv.perm.subset (List.getElem_mem hfp_lt)
      rcases List.mem_flatten.mp hfmem with ⟨g, hgmem, hfg⟩
      rcases List.append_of_mem hgmem with ⟨G1, G2, hGeq⟩
      subst hGeq
      rcases exists_rotated_group (inv.groups_inv g hgmem) hfg with ⟨rest, ginv2, hperm⟩
      cases rest with
      | nil =>
        -- the current fragment already closes its ring: skip downwards
        have hwrap : frags[fp].elements.getLast? = frags[fp].elements.head? := by
          rcases ginv2.chained with ⟨_, _, hw⟩
          simpa [seam] using hw
        have hred : joinLoop (n + 1) frags fp = joinLoop n frags (fp - 1) := by
          simp only [joinLoop, if_pos hfp, hgetD, hwrap,
            search_finds_position inv.sorted inv.heads_nodup fp hfp_lt]
          simp
        rw [hred]
        have hcomp : frags[fp].is_complete_ring = true := by
          have hlen : 3 < frags[fp].elements.length := by
            have := ginv2.total_len
            simp only [List.map_cons, List.map_nil, List.sum_cons, List.sum_nil,
              List.length_cons, List.length_nil] at this
            omega
          simp [TowerRing.is_complete_ring, hwrap, hlen]
        exact ih frags (fp - 1) _ (joinInv_step_down inv hfp hcomp) (by omega)
      | cons h rest2 =>
        have hhf : h ∈ frags := inv.perm.mem_iff.mpr
          (List.mem_flatten.mpr ⟨g, hgmem, hperm.subset (by simp)⟩)
        rcases List.mem_iff_getElem.mp hhf with ⟨jh, hjh, hhe⟩
        have hfh_ne : frags[fp] ≠ h := by
          have hnd := ginv2.heads_nodup
          simp only [List.map_cons] at hnd
          rcases List.nodup_cons.mp hnd with ⟨hmem2, _⟩
          intro heq
          exact hmem2 (by simp [heq])
        have hjh_ne : jh ≠ fp := by
          intro heq
          subst heq
          exact hfh_ne hhe
        have hseam_fh : frags[fp].elements.getLast? = h.elements.head? := by
          rcases ginv2.chained with ⟨_, hch, _⟩
          exact (List.chain'_cons.mp hch).1
        have hjh_lt : jh < fp := by
          rcases Nat.lt_or_ge jh fp with hlt | hge
          · exact hlt
          · exfalso
            have hgt : fp < jh := by omega
            have hcomp := inv.above_complete jh hjh hgt
            rw [hhe] at hcomp
            exact ginv2.incomplete (by simp) h (by simp) (complete_head_eq_last hcomp)
        -- the search finds the successor fragment
        have htarget : frags[fp].elements.getLast? = frags[jh].elements.head? := by
          rw [hseam_fh, hhe]
        have hlen_erase : (frags.eraseIdx jh).length = frags.length - 1 := by
          rw [List.length_eraseIdx]
          simp [hjh]
        have hfp1_lt : fp - 1 < (frags.eraseIdx jh).length := by omega
        have herase_at : getElem (frags.eraseIdx jh) (fp - 1) hfp1_lt = frags[fp] := by
          rw [List.getElem_eraseIdx]
          have hx : ¬ (fp - 1 < jh) := by omega
          rw [dif_neg hx]
          have harith : fp - 1 + 1 = fp := by omega
          simp only [harith]
        have hgetD2 : (frags.eraseIdx jh).getD (fp - 1) ⟨[]⟩ = frags[fp] := by
          rw [List.getD_eq_getElem _ _ hfp1_lt, herase_at]
        have hgetD3 : frags.getD jh ⟨[]⟩ = h := by
          rw [List.getD_eq_getElem _ _ hjh, hhe]
        have hred : joinLoop (n + 1) frags fp =
            joinLoop n ((frags.eraseIdx jh).set (fp - 1)
              (TowerRing.join_rings_in_place frags[fp] h)) (fp - 1) := by
          simp only [joinLoop, if_pos hfp, hgetD, htarget,
            search_finds_position inv.sorted inv.heads_nodup jh hjh]
          simp only [if_neg hjh_ne, if_pos hjh_lt, hgetD2, hgetD3]
        rw [hred]
        have hinv2 := joinInv_step_merge inv hfp ginv2 hperm jh hjh hhe hjh_lt
        have hres := ih _ _ _ hinv2 (by
          simp only [List.length_set]
          omega)
        refine ⟨?_, hres.2⟩
        rw [hres.1]
        simp

theorem groupInv_of_arrangement {groups : List (List TowerRing)}
    {fragments : List TowerRing} (arr : RingArrangement groups fragments)
    {g : List TowerRing} (hg : g ∈ groups) : GroupInv g := by
  have hch := arr.chained g hg
  have hlen := arr.frag_len g hg
  refine ⟨hch.1, hch, hlen, ?_, ?_, ?_⟩
  · exact group_heads_nodup g hch hlen (arr.ring_nodup g hg)
  · have h1 := chainElements_length_eq g hch.1 (by
      intro f hf he
      have := hlen f hf
      rw [he] at this
      simp at this)
    have h2 := arr.ring_len g hg
    omega
  · exact group_member_incomplete g hch hlen (arr.ring_nodup g hg)

theorem head_mem_chain {g : List TowerRing} {f : TowerRing} (hf : f ∈ g)
    (hlen : ∀ f ∈ g, 2 ≤ f.elements.length) (hch : List.Chain' seam g)
    {x : TowerRingElement} (hx : f.elements.head? = some x) :
    x ∈ chainElements g := by
  have hne : ∀ f ∈ g, f.elements ≠ [] := by
    intro f2 hf2 he
    have := hlen f2 hf2
    rw [he] at this
    simp at this
  apply mem_chainElements hf hne hch
  cases he : f.elements with
  | nil => rw [he] at hx; cases hx
  | cons e es =>
    rw [he] at hx
    simp only [List.head?_cons, Option.some.injEq] at hx
    simp [he, hx.symm]

theorem arrangement_heads_nodup {groups : List (List TowerRing)}
    {fragments : List TowerRing} (arr : RingArrangement groups fragments) :
    (groups.flatten.map (fun f => f.elements.head?)).Nodup := by
  rw [List.map_flatten]
  rw [List.nodup_flatten]
  constructor
  · intro l hl
    rcases List.mem_map.mp hl with ⟨g, hg, rfl⟩
    exact (groupInv_of_arrangement arr hg).heads_nodup
  · rw [List.pairwise_map]
    rw [List.pairwise_iff_getElem]
    intro i j hi hj hij
    have hd := List.pairwise_iff_getElem.mp arr.disjoint i j hi hj hij
    intro x hxi hxj
    rcases List.mem_map.mp hxi with ⟨f1, hf1, hx1⟩
    rcases List.mem_map.mp hxj with ⟨f2, hf2, hx2⟩
    have hgi := groupInv_of_arrangement arr (List.getElem_mem hi)
    have hgj := groupInv_of_arrangement arr (List.getElem_mem hj)
    have hne1 : f1.elements ≠ [] := by
      intro he
      have := hgi.mem_len f1 hf1
      rw [he] at this
      simp at this
    cases he1 : f1.elements with
    | nil => exact absurd he1 hne1
    | cons e es =>
      have hex1 : f1.elements.head? = some e := by rw [he1]; rfl
      have hmem1 : e ∈ chainElements groups[i] :=
        head_mem_chain hf1 hgi.mem_len hgi.chained.2.1 hex1
      have hx12 : f2.elements.head? = some e := by
        rw [hx2, ← hx1, hex1]
      have hmem2 : e ∈ chainElements groups[j] :=
        head_mem_chain hf2 hgj.mem_len hgj.chained.2.1 hx12
      exact hd e hmem1 hmem2

/-- Claim C5 (amended): for fragments arrangeable into N disjoint complete
rings whose composed rings additionally have pairwise distinct elements
apart from the closing repetition, `join_fragments` produces exactly N
rings, each complete. -/
theorem join_fragments_spec (fragments : List TowerRing)
    (groups : List (List TowerRing)) (arr : RingArrangement groups fragments) :
    (join_fragments fragments).length = groups.length ∧
    ∀ r ∈ join_fragments fragments, r.is_complete_ring = true := by
  by_cases hz : fragments.length = 0
  · have hfe : fragments = [] := List.length_eq_zero.mp hz
    subst hfe
    have hfl : groups.flatten = [] := arr.perm.symm.eq_nil
    have hge : groups = [] := by
      cases hg : groups with
      | nil => rfl
      | cons g rest =>
        have hne := (arr.chained g (by rw [hg]; simp)).1
        rw [hg] at hfl
        simp only [List.flatten_cons, List.append_eq_nil] at hfl
        exact absurd hfl.1 hne
    subst hge
    simp [join_fragments]
  · have hlen_pos : 0 < fragments.length := Nat.pos_of_ne_zero hz
    have hperm_sorted : (stableSort ringLe fragments).Perm fragments :=
      stableSort_perm ringLe fragments
    have hslen : (stableSort ringLe fragments).length = fragments.length :=
      hperm_sorted.length_eq
    have inv : JoinInv (stableSort ringLe fragments)
        ((stableSort ringLe fragments).length - 1) groups := by
      refine ⟨hperm_sorted.trans arr.perm,
        stableSort_sorted ringLe ringLe_trans ringLe_total fragments, ?_, ?_, ?_, ?_, ?_⟩
      · have h1 := arrangement_heads_nodup arr
        have h2 : ((stableSort ringLe fragments).map (fun f => f.elements.head?)).Perm
            (groups.flatten.map (fun f => f.elements.head?)) :=
          (hperm_sorted.trans arr.perm).map _
        exact h2.nodup_iff.mpr h1
      · intro f hf
        have hfm : f ∈ groups.flatten := (hperm_sorted.trans arr.perm).subset hf
        rcases List.mem_flatten.mp hfm with ⟨g, hg, hfg⟩
        exact arr.frag_len g hg f hfg
      · intro g hg
        exact groupInv_of_arrangement arr hg
      · omega
      · intro i hi hgt
        exact absurd hgt (by omega)
    have hmain := joinLoop_spec
      ((stableSort ringLe fragments).length - 1 + (stableSort ringLe fragments).length + 1)
      (stableSort ringLe fragments) ((stableSort ringLe fragments).length - 1)
      groups inv (by omega)
    simp only [join_fragments, if_neg hz]
    exact hmain

/-- Claim C5, counterexample part: two alternating fragments of length 3
that chain into one complete five-element ring (so the original claim's
hypotheses hold with N = 1), yet `join_fragments` returns them both
unchanged: two rings, neither complete. The repeated seam element defeats
the binary search for the successor fragment. -/
theorem cex_c5 :
    (∀ f ∈ [cexFragA, cexFragB], 2 ≤ f.elements.length ∧
      alternatingElements f.elements = true) ∧
    CyclicChain [cexFragA, cexFragB] ∧
    3 < (chainElements [cexFragA, cexFragB]).length ∧
    (chainElements [cexFragA, cexFragB]).head? =
      (chainElements [cexFragA, cexFragB]).getLast? ∧
    join_fragments [cexFragA, cexFragB] = [cexFragA, cexFragB] ∧
    (join_fragments [cexFragA, cexFragB]).length = 2 ∧
    ∀ r ∈ join_fragments [cexFragA, cexFragB], r.is_complete_ring = false := by
  refine ⟨by decide, ⟨by simp [cexFragA, cexFragB], ?_, ?_⟩, by decide, by decide,
    by decide, by decide, by decide⟩
  · exact List.chain'_cons.mpr
      ⟨(by decide : cexFragA.elements.getLast? = cexFragB.elements.head?),
       List.chain'_singleton _⟩
  · exact (by decide :
      ([cexFragA, cexFragB].getLastD ⟨[]⟩).elements.getLast? =
      ([cexFragA, cexFragB].headD ⟨[]⟩).elements.head?)

theorem join_fragments_spec_witness :
    (join_fragments ringGroup1).length = 1 ∧
    ∀ r ∈ join_fragments ringGroup1, r.is_complete_ring = true := by
  have harr : RingArrangement [ringGroup1] ringGroup1 := by
    refine ⟨by simp, by decide, by decide, ?_, by decide, by decide, by simp⟩
    intro g hg
    simp only [List.mem_singleton] at hg
    subst hg
    refine ⟨by simp [ringGroup1], ?_, ?_⟩
    · refine List.chain'_cons.mpr ⟨?_, List.chain'_cons.mpr ⟨?_, List.chain'_singleton _⟩⟩
      · exact (by decide : (⟨[.Edge 0 11, .Face 10]⟩ : TowerRing).elements.getLast? =
          (⟨[.Face 10, .Edge 0 12, .Face 11]⟩ : TowerRing).elements.head?)
      · exact (by decide : (⟨[.Face 10, .Edge 0 12, .Face 11]⟩ : TowerRing).elements.getLast? =
          (⟨[.Face 11, .Edge 0 11]⟩ : TowerRing).elements.head?)
    · exact (by decide : (ringGroup1.getLastD ⟨[]⟩).elements.getLast? =
        (ringGroup1.headD ⟨[]⟩).elements.head?)
  have h := join_fragments_spec ringGroup1 [ringGroup1] harr
  simpa using h

/-! ### advance_to_height: pop-below-target with completeness checking -/

theorem advanceLoop_cases : ∀ (heap : List TowerVertex) (active : List TowerRing) (z : ℚ),
    ((∀ j < (heap.takeWhile fun v => decide (v.start_vert.z < z)).length,
        allComplete (((heap.takeWhile fun v => decide (v.start_vert.z < z)).take (j + 1)).foldl
          (fun act v => processVertex v act) active) = true) →
      advanceLoop heap active z =
        .ok (heap.dropWhile (fun v => decide (v.start_vert.z < z)),
          (heap.takeWhile fun v => decide (v.start_vert.z < z)).foldl
            (fun act v => processVertex v act) active)) ∧
    ((¬ ∀ j < (heap.takeWhile fun v => decide (v.start_vert.z < z)).length,
        allComplete (((heap.takeWhile fun v => decide (v.start_vert.z < z)).take (j + 1)).foldl
          (fun act v => processVertex v act) active) = true) →
      advanceLoop heap active z = .error .TowerGeneration) := by
  intro heap
  induction heap with
  | nil =>
    intro active z
    constructor
    · intro _
      simp [advanceLoop]
    · intro hcond
      exfalso
      apply hcond
      intro j hj
      simp at hj
  | cons v rest ih =>
    intro active z
    by_cases hv : v.start_vert.z < z
    · have htw : (v :: rest).takeWhile (fun v => decide (v.start_vert.z < z)) =
          v :: rest.takeWhile (fun v => decide (v.start_vert.z < z)) := by
        simp [List.takeWhile_cons, hv]
      have hdw : (v :: rest).dropWhile (fun v => decide (v.start_vert.z < z)) =
          rest.dropWhile (fun v => decide (v.start_vert.z < z)) := by
        simp [List.dropWhile_cons, hv]
      by_cases hc : allComplete (processVertex v active) = true
      · have hred : advanceLoop (v :: rest) active z =
            advanceLoop rest (processVertex v active) z := by
          simp [advanceLoop, hv, hc]
        constructor
        · intro hcond
          rw [hred, htw, hdw, List.foldl_cons]
          apply (ih (processVertex v active) z).1
          intro j hj
          have hcj := hcond (j + 1) (by rw [htw]; simpa using Nat.succ_lt_succ hj)
          rw [htw] at hcj
          simpa [List.take_succ_cons, List.foldl_cons] using hcj
        · intro hcond
          rw [hred]
          apply (ih (processVertex v active) z).2
          intro hall
          apply hcond
          intro j hj
          rw [htw] at hj ⊢
          cases j with
          | zero =>
            exact hc
          | succ j2 =>
            have hj2 := hall j2 (by simpa using Nat.lt_of_succ_lt_succ hj)
            simpa [List.take_succ_cons, List.foldl_cons] using hj2
      · have hred : advanceLoop (v :: rest) active z = .error .TowerGeneration := by
          simp [advanceLoop, hv, hc]
        constructor
        · intro hcond
          exfalso
          apply hc
          have h0 := hcond 0 (by rw [htw]; simp)
          rw [htw] at h0
          simpa [List.take_succ_cons] using h0
        · intro _
          exact hred
    · have htw : (v :: rest).takeWhile (fun v => decide (v.start_vert.z < z)) = [] := by
        simp [List.takeWhile_cons, hv]
      have hdw : (v :: rest).dropWhile (fun v => decide (v.start_vert.z < z)) = v :: rest := by
        simp [List.dropWhile_cons, hv]
      constructor
      · intro _
        rw [htw, hdw]
        simp [advanceLoop, hv]
      · intro hcond
        exfalso
        apply hcond
        intro j hj
        rw [htw] at hj
        simp at hj

theorem dropWhile_eq_filter_of_sorted (z : ℚ) :
    ∀ (l : List TowerVertex),
    l.Pairwise (fun a b => a.start_vert.z ≤ b.start_vert.z) →
    l.dropWhile (fun v => decide (v.start_vert.z < z)) =
      l.filter (fun v => !decide (v.start_vert.z < z)) := by
  intro l
  induction l with
  | nil => intro _; rfl
  | cons a t ih =>
    intro hp
    rcases List.pairwise_cons.mp hp with ⟨ha, ht⟩
    by_cases hv : a.start_vert.z < z
    · simp only [List.dropWhile_cons, List.filter_cons, hv]
      simpa using ih ht
    · have hfil : t.filter (fun v => !decide (v.start_vert.z < z)) = t := by
        rw [List.filter_eq_self]
        intro b hb
        have hab := ha b hb
        simp only [Bool.not_eq_true', decide_eq_false_iff_not]
        intro hblt
        exact hv (lt_of_le_of_lt hab hblt)
      simp only [List.dropWhile_cons, List.filter_cons, hv]
      simp [hfil]

/-- Claim C6: with the event heap in pop order, `advance_to_height z` pops
exactly the vertices with vertex z strictly below the target (the filter of
the heap on non-popped vertices remains); if after every pop the re-joined
active set is all complete rings the call returns `Ok` with the stored
height set to the requested `z`, and otherwise it returns the
`TowerGeneration` error. -/
theorem advance_to_height_spec (s : TowerIterState) (z : ℚ)
    (hsorted : s.heap.Pairwise (fun a b => a.start_vert.z ≤ b.start_vert.z)) :
    ((∀ j < (s.heap.takeWhile fun v => decide (v.start_vert.z < z)).length,
        allComplete (stageActive s z (j + 1)) = true) →
      TriangleTowerIterator.advance_to_height s z =
        .ok ⟨s.heap.filter (fun v => !decide (v.start_vert.z < z)), z,
          stageActive s z
            (s.heap.takeWhile fun v => decide (v.start_vert.z < z)).length⟩) ∧
    ((¬ ∀ j < (s.heap.takeWhile fun v => decide (v.start_vert.z < z)).length,
        allComplete (stageActive s z (j + 1)) = true) →
      TriangleTowerIterator.advance_to_height s z = .error .TowerGeneration) := by
  have hcases := advanceLoop_cases s.heap s.active_rings z
  constructor
  · intro hcond
    have hok := hcases.1 (by
      intro j hj
      exact hcond j hj)
    simp only [TriangleTowerIterator.advance_to_height, hok]
    have hdf := dropWhile_eq_filter_of_sorted z s.heap hsorted
    rw [hdf] at hok
    simp only [TriangleTowerIterator.advance_to_height, hdf] at *
    congr 1
    simp only [stageActive, List.take_length]
  · intro hcond
    have herr := hcases.2 (by
      intro hall
      exact hcond (by intro j hj; exact hall j hj))
    simp only [TriangleTowerIterator.advance_to_height, herr]

theorem advance_to_height_spec_witness :
    TriangleTowerIterator.advance_to_height witStateC6 1 =
      .ok ⟨[], 1, [⟨[.Edge 0 1, .Face 1, .Edge 0 2, .Face 2, .Edge 0 1]⟩]⟩ := by
  have h := (advance_to_height_spec witStateC6 1 (by decide)).1 (by decide)
  exact h.trans (congrArg Except.ok (by decide))
